import Mathlib

/-!
Verification of the slot-map core of cppasta: generational indices
(generational_index.hpp), skipfields (skipfield.hpp), the sparse SlotMap
(slot_map.hpp over slot_map_storage.hpp) and the DenseSlotMap
(dense_slot_map.hpp).

Modelling conventions:
* unsigned machine integers of width w are modelled as Nat with explicit
  `% 2^w` exactly where the C++ arithmetic wraps or masks;
* casts of slot indices into a key's index field are modelled as the
  identity (they are the identity whenever the capacity is below the index
  range, which every configuration considered here satisfies);
* an operation whose C++ execution would fail an assert, read memory out of
  bounds, read a storage cell in the role it does not currently hold, or
  otherwise hit undefined behaviour, returns `none`;
* the float `growth_factor` is modelled as a ratio of two naturals
  (`gfNum / gfDen`); for the factor 1.0 used throughout the spec's
  scenarios float arithmetic is exact, and
  `static_cast<size_t>(x)` is truncating division.
-/

namespace Pasta

/-! ### Generational ids (generational_index.hpp) -/

/-- A generational key as the slot maps see it: an index and a generation
(two unsigned integers).  The zero-generation key is the invalid sentinel. -/
structure GKey where
  idx : Nat
  gen : Nat
  deriving DecidableEq, Repr

/-- The generation step shared by every id type
(GenerationalIdBase::next_generation): add one, mask to the generation
width (modulus M = 2^GenBits), and map 0 back to 1.  The invalid
generation 0 is never produced. -/
def nextGenVal (M g : Nat) : Nat :=
  let g' := (g + 1) % M
  if g' = 0 then 1 else g'

/-- next_generation on a whole key: the index is kept, the generation is
advanced with modulus M. -/
def GKey.nextGeneration (M : Nat) (k : GKey) : GKey :=
  ⟨k.idx, nextGenVal M k.gen⟩

/-- GenerationalIdBase::valid: the generation is nonzero. -/
def GKey.valid (k : GKey) : Bool := k.gen ≠ 0

/-- CompositeId (generational_index.hpp): separate index and generation
fields of widths iw and gw bits; the constructor stores into unsigned
integers of those widths, i.e. reduces mod 2^iw and 2^gw. -/
structure CId where
  index : Nat
  generation : Nat
  deriving DecidableEq, Repr

def CId.make (iw gw i g : Nat) : CId := ⟨i % 2 ^ iw, g % 2 ^ gw⟩

def CId.idx (k : CId) : Nat := k.index

def CId.gen (k : CId) : Nat := k.generation

/-- The generation field of CompositeId::max() = Derived(-1, -1):
the all-ones generation. -/
def CId.maxGen (gw : Nat) : Nat := 2 ^ gw - 1

/-- GenerationalIdBase::next_generation for CompositeId:
g = (gen() + 1) & max().gen() (= mod 2^gw), then 0 is replaced by 1 and
the result goes through the constructor again. -/
def CId.nextGeneration (iw gw : Nat) (k : CId) : CId :=
  CId.make iw gw k.idx (nextGenVal (2 ^ gw) k.gen)

/-- BitFieldId (generational_index.hpp): index and generation packed as
bit-fields of widths ib and gb; the constructor masks both fields
(i & IdxMask, g & GenMask), i.e. reduces mod 2^ib and 2^gb. -/
structure BFId where
  index : Nat
  generation : Nat
  deriving DecidableEq, Repr

def BFId.make (ib gb i g : Nat) : BFId := ⟨i % 2 ^ ib, g % 2 ^ gb⟩

def BFId.idx (k : BFId) : Nat := k.index

def BFId.gen (k : BFId) : Nat := k.generation

def BFId.nextGeneration (ib gb : Nat) (k : BFId) : BFId :=
  BFId.make ib gb k.idx (nextGenVal (2 ^ gb) k.gen)

/-- BitMaskId (generational_index.hpp): one integer of ib+gb bits holding
(g << IdxBits) | (i & IdxMask).  Since the two parts occupy disjoint bit
ranges, the value equals (g mod 2^gb) * 2^ib + (i mod 2^ib). -/
structure BMId where
  value : Nat
  deriving DecidableEq, Repr

def BMId.make (ib gb i g : Nat) : BMId := ⟨(g % 2 ^ gb) * 2 ^ ib + i % 2 ^ ib⟩

/-- BitMaskId::idx: value & IdxMask. -/
def BMId.idx (ib : Nat) (k : BMId) : Nat := k.value % 2 ^ ib

/-- BitMaskId::gen: value >> IdxBits. -/
def BMId.gen (ib : Nat) (k : BMId) : Nat := k.value / 2 ^ ib

def BMId.nextGeneration (ib gb : Nat) (k : BMId) : BMId :=
  BMId.make ib gb (BMId.idx ib k) (nextGenVal (2 ^ gb) (BMId.gen ib k))

/-! ### Skipfields (skipfield.hpp)

The three strategies share one state representation here: a list of
counters (IntSkipfield's num_skipped_, uint32), a list of 0/1 flags
(BoolSkipfield's skipped_, uint8), or the empty list (NullSkipfield has no
state).  Every operation returns none exactly when the C++ call would fail
an assert or touch memory out of bounds (including the size_t underflows
that produce huge indices). -/

/-- IntSkipfield::set_range_skipped(start, count): positions start + i
hold count − i for i < count − 1, and the final position start + count − 1
holds count (the mirrored endpoint).  count = 0 underflows the C++ loop
bound; a range past the end writes out of bounds: both give none. -/
def setRangeSkipped (l : List Nat) (start count : Nat) : Option (List Nat) :=
  if count = 0 ∨ l.length < start + count then none
  else
    some ((List.range count).foldl
      (fun acc i => acc.set (start + i) (if i = count - 1 then count else count - i)) l)

/-- IntSkipfield::set_skipped. -/
def skipSetSkippedInt (l : List Nat) (idx : Nat) : Option (List Nat) :=
  if l.length ≤ idx then none          -- assert(idx < num_skipped_.size())
  else if l.getD idx 0 ≠ 0 then none   -- assert(num_skipped_[idx] == 0)
  else
    let prev := if 0 < idx then l.getD (idx - 1) 0 else 0
    let next := if idx + 1 < l.length then l.getD (idx + 1) 0 else 0
    if prev = 0 ∧ next = 0 then
      some (l.set idx 1)
    else if prev = 0 ∧ next ≠ 0 then
      -- a skipped range to the right of idx
      if l.length ≤ idx + next - 1 then none
      else some ((l.set idx (next + 1)).set (idx + next - 1) (next + 1))
    else if prev ≠ 0 ∧ next = 0 then
      -- a skipped range to the left of idx
      if idx < prev then none          -- idx - prev underflows size_t
      else setRangeSkipped l (idx - prev) (prev + 1)
    else
      -- a skipped range on both sides
      if idx < prev then none
      else setRangeSkipped l (idx - prev) (prev + next + 1)

/-- IntSkipfield::set_not_skipped. -/
def skipSetNotSkippedInt (l : List Nat) (idx : Nat) : Option (List Nat) :=
  if l.length ≤ idx then none          -- assert(idx < num_skipped_.size())
  else
    let cur := l.getD idx 0
    if cur = 0 then none               -- assert(cur > 0)
    else
      let prev := if 0 < idx then l.getD (idx - 1) 0 else 0
      let next := if idx + 1 < l.length then l.getD (idx + 1) 0 else 0
      if prev = 0 ∧ next = 0 then
        some (l.set idx 0)
      else if prev = 0 ∧ next ≠ 0 then
        -- a skipped range to the right of idx
        if l.length ≤ idx + cur - 1 then none
        else some ((l.set idx 0).set (idx + cur - 1) (cur - 1))
      else if prev ≠ 0 ∧ next = 0 then
        -- a skipped range to the left of idx
        if idx < cur - 1 then none     -- idx - new_len underflows size_t
        else setRangeSkipped (l.set idx 0) (idx - (cur - 1)) (cur - 1)
      else
        -- a skipped range on both sides
        let last := idx + cur - 1
        if l.length ≤ last then none   -- num_skipped_[last] read out of bounds
        else
          let len := l.getD last 0
          if last + 1 < len then none  -- first = last + 1 - len underflows
          else
            let first := last + 1 - len
            if idx < first then none   -- idx - first underflows size_t
            else
              (setRangeSkipped (l.set idx 0) first (idx - first)).bind
                fun l1 => setRangeSkipped l1 (idx + 1) (last - idx)

/-- IntSkipfield::get_num_skipped. -/
def skipGetNumSkippedInt (l : List Nat) (idx : Nat) : Option Nat :=
  if l.length ≤ idx then none          -- assert(idx < num_skipped_.size())
  else some (l.getD idx 0)

/-- IntSkipfield::resize(size, init_skipped). -/
def skipResizeInt (l : List Nat) (size : Nat) (initSkipped : Bool) : Option (List Nat) :=
  if size ≤ l.length then none         -- assert(size > num_skipped_.size())
  else
    let old := l.length
    let l1 := l ++ List.replicate (size - old) 0
    if initSkipped then
      if old = 0 ∨ l.getD (old - 1) 0 = 0 then
        setRangeSkipped l1 old (size - old)
      else
        let prev := l.getD (old - 1) 0
        if old < prev then none        -- old_size - prev underflows size_t
        else setRangeSkipped l1 (old - prev) (size - old + prev)
    else some l1

/-- BoolSkipfield::set_skipped. -/
def skipSetSkippedBool (l : List Nat) (idx : Nat) : Option (List Nat) :=
  if l.length ≤ idx then none          -- assert(idx < skipped_.size())
  else if l.getD idx 0 ≠ 0 then none   -- assert(skipped_[idx] == 0)
  else some (l.set idx 1)

/-- BoolSkipfield::set_not_skipped. -/
def skipSetNotSkippedBool (l : List Nat) (idx : Nat) : Option (List Nat) :=
  if l.length ≤ idx then none          -- assert(idx < skipped_.size())
  else if l.getD idx 0 = 0 then none   -- assert(skipped_[idx] > 0)
  else some (l.set idx 0)

/-- BoolSkipfield::get_num_skipped: scan forward while the flag is set. -/
def skipGetNumSkippedBool (l : List Nat) (idx : Nat) : Option Nat :=
  if l.length ≤ idx then none          -- assert(idx < skipped_.size())
  else some ((l.drop idx).takeWhile (fun f => f ≠ 0)).length

/-- BoolSkipfield::resize(size, init_skipped). -/
def skipResizeBool (l : List Nat) (size : Nat) (initSkipped : Bool) : Option (List Nat) :=
  if size ≤ l.length then none         -- assert(size > skipped_.size())
  else some (l ++ List.replicate (size - l.length) (if initSkipped then 1 else 0))

/-- The three skipfield strategies a SlotMap can be configured with. -/
inductive SkipImpl where
  | intSF
  | boolSF
  | nullSF
  deriving DecidableEq, Repr

/-- Skipfield construction (size, init_skipped), per strategy.
NullSkipfield keeps no state. -/
def skipInit : SkipImpl → Nat → Bool → Option (List Nat)
  | .intSF, size, initSkipped =>
      let l := List.replicate size 0
      if initSkipped then setRangeSkipped l 0 size else some l
  | .boolSF, size, initSkipped =>
      some (List.replicate size (if initSkipped then 1 else 0))
  | .nullSF, _, _ => some []

def skipSetSkipped : SkipImpl → List Nat → Nat → Option (List Nat)
  | .intSF, l, idx => skipSetSkippedInt l idx
  | .boolSF, l, idx => skipSetSkippedBool l idx
  | .nullSF, l, _ => some l

def skipSetNotSkipped : SkipImpl → List Nat → Nat → Option (List Nat)
  | .intSF, l, idx => skipSetNotSkippedInt l idx
  | .boolSF, l, idx => skipSetNotSkippedBool l idx
  | .nullSF, l, _ => some l

def skipGetNumSkipped : SkipImpl → List Nat → Nat → Option Nat
  | .intSF, l, idx => skipGetNumSkippedInt l idx
  | .boolSF, l, idx => skipGetNumSkippedBool l idx
  | .nullSF, _, _ => some 0

def skipResize : SkipImpl → List Nat → Nat → Bool → Option (List Nat)
  | .intSF, l, size, b => skipResizeInt l size b
  | .boolSF, l, size, b => skipResizeBool l size b
  | .nullSF, l, _, _ => some l

/-! ### Sparse SlotMap (slot_map.hpp over slot_map_storage.hpp)

The storage backend modelled is GrowableSlotMapStorage: one cell per slot
holding either a free-list link (uint32) or a live value, plus a
generation table.  std::vector::resize semantics (truncate or extend with
zeros) is `resizeList`.  The generation modulus M = 2^GenBits of the key
type is a parameter of the operations that advance generations. -/

/-- A storage cell: the raw memory holds either a free-list link or a
live value, never both (ElementStorage + placement new in
slot_map_storage.hpp). -/
inductive Cell (T : Type) where
  | link (next : Nat)
  | val (v : T)
  deriving DecidableEq, Repr

/-- std::vector<uint32_t>::resize(n, 0). -/
def resizeList (l : List Nat) (n : Nat) : List Nat :=
  (l ++ List.replicate (n - l.length) 0).take n

/-- The state of SlotMap<T, GrowableSlotMapStorage, Key, Skipfield>. -/
structure SM (T : Type) where
  cells : List (Cell T)       -- GrowableSlotMapStorage::data_
  gens : List Nat             -- GrowableSlotMapStorage::generations_
  skip : List Nat             -- skipfield_ state
  sz : Nat                    -- size_
  freeHead : Nat              -- free_list_head_
  gc : Nat                    -- growth_constant_
  gfNum : Nat                 -- growth_factor_ as a ratio,
  gfDen : Nat                 --   exact for the factor 1.0 used here
  genCtr : Nat                -- generation_
  deriving DecidableEq, Repr

/-- SlotMap::SlotMap(capacity, growth_constant, growth_factor):
every cell is a free-list link to the next slot (the last one links
past the end), all generations 0, the skipfield starts all-skipped,
generation counter 1. -/
def SM.init (impl : SkipImpl) (T : Type) (cap gc gfNum gfDen : Nat) :
    Option (SM T) :=
  (skipInit impl cap true).map fun sk =>
    { cells := (List.range cap).map (fun i => Cell.link (i + 1)),
      gens := List.replicate cap 0,
      skip := sk, sz := 0, freeHead := 0,
      gc := gc, gfNum := gfNum, gfDen := gfDen, genCtr := 1 }

/-- SlotMap::resize(size): grow the storage (shrinking relocates old
cells out of the new buffer, which is out-of-bounds), link the fresh
slots together, link the last fresh slot to the old free-list head and
point the free-list head at the first fresh slot. -/
def SM.resize {T : Type} (impl : SkipImpl) (s : SM T) (size : Nat) :
    Option (SM T) :=
  if size ≤ s.cells.length then none
  else
    (skipResize impl s.skip size true).bind fun sk =>
      let old := s.cells.length
      let cells1 :=
        s.cells ++ (List.range (size - old)).map (fun j => Cell.link (old + j + 1))
      let cells2 := cells1.set (size - 1) (Cell.link s.freeHead)
      some { s with
        cells := cells2,
        gens := resizeList s.gens size,
        skip := sk,
        freeHead := old }

/-- SlotMap::insert(value).  Mirrors the source: the slot index is read
from free_list_head_ before the exhaustion check; on the growth path the
free list is not popped after resize (see the C3 analysis below). -/
def SM.insert {T : Type} (impl : SkipImpl) (M : Nat) (v : T) (s : SM T) :
    Option (GKey × SM T) :=
  let idx := s.freeHead
  let popped : Option (SM T) :=
    if s.cells.length ≤ s.freeHead then
      -- space exhausted
      let newSize := s.cells.length * s.gfNum / s.gfDen + s.gc
      if newSize ≤ s.cells.length then none  -- assert "SlotMap full"
      else SM.resize impl s newSize
    else
      if s.gens.getD s.freeHead 0 ≠ 0 then none  -- assert(gen(free_list_head_) == 0)
      else
        match s.cells.getD s.freeHead (Cell.link 0) with
        | Cell.link nxt => some { s with freeHead := nxt }
        | Cell.val _ => none  -- free_list() read of a cell holding a value
  popped.bind fun s1 =>
    let key : GKey := ⟨idx, s1.genCtr⟩
    if s1.cells.length ≤ idx then none         -- store_element out of bounds
    else if s1.gens.getD idx 0 ≠ 0 then none   -- assert(generations_[idx] == 0)
    else
      (skipSetNotSkipped impl s1.skip idx).bind fun sk =>
        some (key, { s1 with
          cells := s1.cells.set idx (Cell.val v),
          skip := sk,
          gens := s1.gens.set idx key.gen,
          sz := s1.sz + 1,
          genCtr := nextGenVal M s1.genCtr })

/-- SlotMap::remove(key). -/
def SM.remove {T : Type} (impl : SkipImpl) (k : GKey) (s : SM T) :
    Option (Bool × SM T) :=
  if s.cells.length ≤ k.idx then none  -- assert(idx < storage_.size())
  else if k.gen = 0 ∨ k.gen ≠ s.gens.getD k.idx 0 then some (false, s)
  else
    match s.cells.getD k.idx (Cell.link 0) with
    | Cell.val _ =>
        -- destroy_element(idx, free_list_head_), then push idx as the
        -- new free-list head, clear the generation, mark skipped
        (skipSetSkipped impl s.skip k.idx).bind fun sk =>
          some (true, { s with
            cells := s.cells.set k.idx (Cell.link s.freeHead),
            freeHead := k.idx,
            gens := s.gens.set k.idx 0,
            skip := sk,
            sz := s.sz - 1 })
    | Cell.link _ => none  -- destroying a value that is not there

/-- SlotMap::contains(key). -/
def SM.contains {T : Type} (k : GKey) (s : SM T) : Option Bool :=
  if s.cells.length ≤ k.idx then none  -- assert(key.idx() < storage_.size())
  else some (k.valid && (s.gens.getD k.idx 0 == k.gen))

/-- SlotMap::get(key): precondition contains(key); reads the cell as a
value. -/
def SM.get {T : Type} (k : GKey) (s : SM T) : Option T :=
  (SM.contains k s).bind fun c =>
    if c then
      match s.cells.getD k.idx (Cell.link 0) with
      | Cell.val v => some v
      | Cell.link _ => none  -- data() read of a cell holding a link
    else none  -- assert(contains(key))

/-- SlotMap::find(key): some none when the key is absent, some (some v)
when present. -/
def SM.find {T : Type} (k : GKey) (s : SM T) : Option (Option T) :=
  (SM.contains k s).bind fun c =>
    if c then (SM.get k s).map some
    else some none

/-- The linear scan at the end of SlotMap::next: the first slot at or
after i with nonzero generation, as a key, or the invalid sentinel. -/
def scanLive (gens : List Nat) (i : Nat) : GKey :=
  match (gens.drop i).findIdx? (fun g => g ≠ 0) with
  | some j => ⟨i + j, (gens.drop i).getD j 0⟩
  | none => ⟨0, 0⟩

/-- SlotMap::next(key): start one past the key (or at 0 for the invalid
sentinel), jump by the skipfield's run length, then scan linearly. -/
def SM.next {T : Type} (impl : SkipImpl) (k : GKey) (s : SM T) :
    Option GKey :=
  let i0 := if k.valid then k.idx + 1 else 0
  (skipGetNumSkipped impl s.skip i0).map fun sk => scanLive s.gens (i0 + sk)

/-- Public operations of the sparse SlotMap used by the trace claims. -/
inductive SMOp (T : Type) where
  | ins (v : T)
  | rem (k : GKey)
  | res (n : Nat)
  deriving DecidableEq, Repr

def SM.applyOp {T : Type} (impl : SkipImpl) (M : Nat) (op : SMOp T)
    (s : SM T) : Option (SM T) :=
  match op with
  | .ins v => (SM.insert impl M v s).map (fun r => r.2)
  | .rem k => (SM.remove impl k s).map (fun r => r.2)
  | .res n => SM.resize impl s n

def SM.applyOps {T : Type} (impl : SkipImpl) (M : Nat) :
    List (SMOp T) → SM T → Option (SM T)
  | [], s => some s
  | op :: ops, s => (SM.applyOp impl M op s).bind (SM.applyOps impl M ops)

/-- Iterate the map with next() from the invalid sentinel until next()
returns the invalid sentinel, collecting the visited keys (the collect
helper of tests/slotmap.cpp).  fuel bounds the iteration. -/
def SM.collectNext {T : Type} (impl : SkipImpl) (s : SM T) :
    Nat → GKey → Option (List GKey)
  | 0, _ => some []
  | fuel + 1, k =>
      (SM.next impl k s).bind fun k2 =>
        if k2.gen = 0 then some []
        else (SM.collectNext impl s fuel k2).map (fun r => k2 :: r)

/-! ### DenseSlotMap (dense_slot_map.hpp)

data_ and backrefs_ are plain vectors; indices_ stores Key values whose
index field is either a position in data_ (occupied slot) or a free-list
link (unoccupied slot); the generation modulus M of the key type
parametrises remove. -/

/-- Swap two positions of a list (std::swap on vector elements); both
callers guard the bounds, out-of-range indices leave the list unchanged. -/
def swapList {α : Type _} (l : List α) (i j : Nat) : List α :=
  match l.get? i, l.get? j with
  | some a, some b => (l.set i b).set j a
  | _, _ => l

/-- The state of DenseSlotMap<T, DataStorage, MetaStorage, Key>. -/
structure DSM (T : Type) where
  data : List T          -- data_
  indices : List GKey    -- indices_
  backrefs : List Nat    -- backrefs_
  freeHead : Nat         -- free_list_head_
  gc : Nat               -- growth_constant_
  gfNum : Nat            -- growth_factor_ as a ratio,
  gfDen : Nat            --   exact for the factor 1.0 used here
  deriving DecidableEq, Repr

/-- DenseSlotMap::DenseSlotMap(capacity, growth_constant, growth_factor):
indices_[i] = Key(i + 1, 1) (a free-list chain with generation 1),
everything else empty. -/
def DSM.init (T : Type) (cap gc gfNum gfDen : Nat) : DSM T :=
  { data := [], indices := (List.range cap).map (fun i => ⟨i + 1, 1⟩),
    backrefs := [], freeHead := 0, gc := gc, gfNum := gfNum, gfDen := gfDen }

/-- DenseSlotMap::reserve(size): indices_.resize(size) (fresh entries are
then overwritten with Key(i + 1, 1)), the last new entry links to the old
free-list head with generation 1, and the free-list head moves to the
first fresh slot.  size = 0 makes indices_[size - 1] an out-of-bounds
write. -/
def DSM.reserve {T : Type} (s : DSM T) (size : Nat) : Option (DSM T) :=
  if size = 0 then none
  else
    let old := s.indices.length
    let idx1 := s.indices.take size
      ++ (List.range (size - old)).map (fun j => GKey.mk (old + j + 1) 1)
    let idx2 := idx1.set (size - 1) ⟨s.freeHead, 1⟩
    some { s with indices := idx2, freeHead := old }

/-- DenseSlotMap::insert(value). -/
def DSM.insert {T : Type} (v : T) (s : DSM T) :
    Option (GKey × DSM T) :=
  let grown : Option (DSM T) :=
    if s.indices.length = s.data.length then
      let newSize := s.data.length * s.gfNum / s.gfDen + s.gc
      if newSize ≤ s.indices.length then none  -- assert "DenseSlotMap full"
      else DSM.reserve s newSize
    else some s
  grown.bind fun s1 =>
    if s1.indices.length ≤ s1.freeHead then none  -- assert(free_list_head_ < indices_.size())
    else
      let ii := s1.freeHead
      let di := s1.data.length
      let g := (s1.indices.getD ii ⟨0, 0⟩).gen
      some (⟨ii, g⟩, { s1 with
        data := s1.data ++ [v],
        backrefs := s1.backrefs ++ [ii],
        indices := s1.indices.set ii ⟨di, g⟩,
        freeHead := (s1.indices.getD ii ⟨0, 0⟩).idx })

/-- DenseSlotMap::contains(key): generation comparison only. -/
def DSM.contains {T : Type} (k : GKey) (s : DSM T) : Option Bool :=
  if s.indices.length ≤ k.idx then none  -- assert(key.idx() < indices_.size())
  else some ((s.indices.getD k.idx ⟨0, 0⟩).gen == k.gen)

/-- DenseSlotMap::remove(key): validate, swap-and-pop the data and
backref entries, re-point the indices entry of the slot whose value
moved, then push the key's own slot on the free list with its generation
advanced.  The source reads backrefs_[data_idx] one pop_back after the
swap; when data_idx is the last position this reads the just-popped cell,
whose buffer still holds its value in every real execution, so the read
is modelled before the pop. -/
def DSM.remove {T : Type} (M : Nat) (k : GKey) (s : DSM T) :
    Option (Bool × DSM T) :=
  if s.indices.length ≤ k.idx then none  -- indices_[key.idx()] out of bounds
  else
    let dataIdx := (s.indices.getD k.idx ⟨0, 0⟩).idx
    if (s.indices.getD k.idx ⟨0, 0⟩).gen ≠ k.gen then some (false, s)
    else if s.data.length = 0 then none  -- last_idx underflows, swap out of bounds
    else
      let last := s.data.length - 1
      if s.data.length ≤ dataIdx then none  -- data_ swap out of bounds
      else if s.backrefs.length ≤ last ∨ s.backrefs.length ≤ dataIdx then
        none                                -- backrefs_ swap out of bounds
      else
        let data3 := (swapList s.data dataIdx last).dropLast
        let br2 := swapList s.backrefs dataIdx last
        let backref := br2.getD dataIdx 0
        let br3 := br2.dropLast
        if s.indices.length ≤ backref then none  -- indices_[backref] out of bounds
        else
          let idx2 := s.indices.set backref
            ⟨dataIdx, (s.indices.getD backref ⟨0, 0⟩).gen⟩
          let idx3 := idx2.set k.idx (GKey.nextGeneration M ⟨s.freeHead, k.gen⟩)
          some (true, { s with
            data := data3, backrefs := br3, indices := idx3,
            freeHead := k.idx })

/-- DenseSlotMap::get(key): precondition contains(key); one indirection
through indices_. -/
def DSM.get {T : Type} (k : GKey) (s : DSM T) : Option T :=
  (DSM.contains k s).bind fun c =>
    if c then s.data.get? ((s.indices.getD k.idx ⟨0, 0⟩).idx)
    else none  -- assert(contains(key))

/-- DenseSlotMap::find(key). -/
def DSM.find {T : Type} (k : GKey) (s : DSM T) : Option (Option T) :=
  (DSM.contains k s).bind fun c =>
    if c then (DSM.get k s).map some
    else some none

/-- Public operations of the DenseSlotMap used by the trace claims
(insert and remove; insert grows internally via reserve). -/
inductive DOp (T : Type) where
  | ins (v : T)
  | rem (k : GKey)
  deriving DecidableEq, Repr

def DSM.applyOp {T : Type} (M : Nat) (op : DOp T) (s : DSM T) :
    Option (DSM T) :=
  match op with
  | .ins v => (DSM.insert v s).map (fun r => r.2)
  | .rem k => (DSM.remove M k s).map (fun r => r.2)

def DSM.applyOps {T : Type} (M : Nat) :
    List (DOp T) → DSM T → Option (DSM T)
  | [], s => some s
  | op :: ops, s => (DSM.applyOp M op s).bind (DSM.applyOps M ops)

/-- The invariant of claim C10: every indices_ entry carries a nonzero
generation (entries are created with generation 1 and only ever advanced
with next_generation, which never yields 0). -/
def DSM.genPos {T : Type} (s : DSM T) : Prop :=
  ∀ j, j < s.indices.length → (s.indices.getD j ⟨0, 0⟩).gen ≠ 0

/-! ### Generation-cycle accounting (for the wraparound-aware statements)

nextGenVal acts on the set {1, ..., M − 1} as the cyclic successor.
cycDist counts the steps needed to go from a to b on that cycle. -/

/-- The number of generation steps from a to b on the cycle
{1, ..., M − 1} (for a, b in that range); 0 exactly when a = b. -/
def cycDist (M a b : Nat) : Nat :=
  if a ≤ b then b - a else b + (M - 1) - a

/-- The number of insert operations in a sparse-map operation list. -/
def smInsCount {T : Type} : List (SMOp T) → Nat
  | [] => 0
  | SMOp.ins _ :: ops => smInsCount ops + 1
  | _ :: ops => smInsCount ops

/-- The number of remove operations in a dense-map operation list. -/
def dRemCount {T : Type} : List (DOp T) → Nat
  | [] => 0
  | DOp.rem _ :: ops => dRemCount ops + 1
  | _ :: ops => dRemCount ops

/-- The stale-key invariant of the sparse SlotMap, relative to a removed
key k: the generation table is in sync with the cells, slot k.idx no
longer stores k's generation, and the global generation counter is a
live (nonzero, in-range) value different from k's generation. -/
def SM.staleInv {T : Type} (M : Nat) (k : GKey) (s : SM T) : Prop :=
  s.gens.length = s.cells.length ∧
  k.idx < s.gens.length ∧
  s.gens.getD k.idx 0 ≠ k.gen ∧
  1 ≤ s.genCtr ∧ s.genCtr < M ∧
  s.genCtr ≠ k.gen

/-- The stale-key invariant of the DenseSlotMap, relative to a removed
key k: the generation stored for slot k.idx is a live in-range value
different from k's generation. -/
def DSM.staleInv {T : Type} (M : Nat) (k : GKey) (s : DSM T) : Prop :=
  k.idx < s.indices.length ∧
  1 ≤ (s.indices.getD k.idx ⟨0, 0⟩).gen ∧
  (s.indices.getD k.idx ⟨0, 0⟩).gen < M ∧
  (s.indices.getD k.idx ⟨0, 0⟩).gen ≠ k.gen

/-- Does slot j currently own a dense data position?  Canonical check
under the packing invariant: the slot's indices entry points into data
and the backref stored there points back at j. -/
def DSM.occupied {T : Type} (s : DSM T) (j : Nat) : Bool :=
  decide ((s.indices.getD j ⟨0, 0⟩).idx < s.data.length) &&
    (s.backrefs.getD (s.indices.getD j ⟨0, 0⟩).idx 0 == j)

/-- The free list of the DenseSlotMap, read off the indices entries:
ch lists the slots reachable from the head by following the idx links.
The link of the last listed slot is unconstrained: after a growth the
source leaves it pointing back into the fresh segment, but it is never
followed, because a pop happens only while the map is not full. -/
def dchain (idxs : List GKey) : Nat → List Nat → Prop
  | _, [] => True
  | h, a :: rest => h = a ∧ dchain idxs (idxs.getD a ⟨0, 0⟩).idx rest

/-- An honest use of remove: the key either names a slot that currently
owns a value, or fails the generation comparison (so remove rejects it).
Keys whose generation happens to match a free slot's stored generation
are forged handles the interface never hands out. -/
def DSM.okOp {T : Type} (op : DOp T) (s : DSM T) : Bool :=
  match op with
  | .ins _ => true
  | .rem k =>
      if k.idx < s.indices.length then
        DSM.occupied s k.idx || !((s.indices.getD k.idx ⟨0, 0⟩).gen == k.gen)
      else true

/-- Every operation of the trace is honest in the state it runs in. -/
def DSM.okTrace {T : Type} (M : Nat) : List (DOp T) → DSM T → Bool
  | [], _ => true
  | op :: ops, s =>
      DSM.okOp op s &&
        (match DSM.applyOp M op s with
         | none => true
         | some s2 => DSM.okTrace M ops s2)

/-- Key k currently resolves to value v: its slot is live with k's
generation, owns a data position holding v, and the backref of that
position points back at the slot. -/
def DSM.track {T : Type} (k : GKey) (v : T) (s : DSM T) : Prop :=
  k.idx < s.indices.length ∧
  (s.indices.getD k.idx ⟨0, 0⟩).gen = k.gen ∧
  (s.indices.getD k.idx ⟨0, 0⟩).idx < s.data.length ∧
  s.backrefs.getD (s.indices.getD k.idx ⟨0, 0⟩).idx 0 = k.idx ∧
  s.data.get? (s.indices.getD k.idx ⟨0, 0⟩).idx = some v

/-- Well-formedness of the DenseSlotMap (spec section 3): backrefs and
data march in step, every occupied position p satisfies the packing
equation indices[backrefs[p]].idx = p, and the remaining
capacity - size slots form a duplicate-free free chain of slots that
own no data position. -/
def DSM.DWF {T : Type} (s : DSM T) : Prop :=
  s.backrefs.length = s.data.length ∧
  s.data.length ≤ s.indices.length ∧
  (∀ p, p < s.data.length → s.backrefs.getD p 0 < s.indices.length ∧
      (s.indices.getD (s.backrefs.getD p 0) ⟨0, 0⟩).idx = p) ∧
  ∃ ch : List Nat,
    dchain s.indices s.freeHead ch ∧
    ch.length = s.indices.length - s.data.length ∧
    ch.Nodup ∧
    (∀ j, j ∈ ch → j < s.indices.length ∧ DSM.occupied s j = false)

end Pasta

namespace Pasta

/-! ### Theorems: claim C9 -/

theorem nextGenVal_ne_zero (M g : Nat) : nextGenVal M g ≠ 0 := by
  unfold nextGenVal
  by_cases h : (g + 1) % M = 0 <;> simp [h]

/-- On the representable range, the generation step is the cyclic
successor on {1, ..., M − 1} (0 steps onto 1 as well, since 0 is never
stored as a live counter). -/
theorem nextGenVal_char {M g : Nat} (h2 : 2 ≤ M) (hg : g < M) :
    nextGenVal M g = if g = M - 1 then 1 else g + 1 := by
  unfold nextGenVal
  by_cases h : g = M - 1
  · subst h
    rw [Nat.sub_add_cancel (by omega), Nat.mod_self]
    simp
  · have hlt : g + 1 < M := by omega
    rw [Nat.mod_eq_of_lt hlt, if_neg (by omega), if_neg h]

theorem nextGenVal_lt {M g : Nat} (h2 : 2 ≤ M) (hg : g < M) :
    nextGenVal M g < M := by
  rw [nextGenVal_char h2 hg]
  by_cases h : g = M - 1 <;> simp [h] <;> omega

theorem nextGenVal_pos (M g : Nat) : 0 < nextGenVal M g :=
  Nat.pos_of_ne_zero (nextGenVal_ne_zero M g)

theorem BMId.idx_make (ib gb i g : Nat) :
    BMId.idx ib (BMId.make ib gb i g) = i % 2 ^ ib := by
  unfold BMId.idx BMId.make
  have hib : 0 < 2 ^ ib := Nat.pos_pow_of_pos _ (by norm_num)
  simp only
  rw [Nat.add_comm, Nat.add_mul_mod_self_right,
    Nat.mod_eq_of_lt (Nat.mod_lt _ hib)]

theorem BMId.gen_make (ib gb i g : Nat) :
    BMId.gen ib (BMId.make ib gb i g) = g % 2 ^ gb := by
  unfold BMId.gen BMId.make
  have hib : 0 < 2 ^ ib := Nat.pos_pow_of_pos _ (by norm_num)
  simp only
  rw [Nat.add_comm, Nat.add_mul_div_right _ _ hib,
    Nat.div_eq_of_lt (Nat.mod_lt _ hib), Nat.zero_add]

/-- C9: next_generation keeps the index and advances the generation by
one, wrapping from the maximum representable generation (2^GenBits − 1)
directly to 1, never producing generation 0 — in each of the three
encodings (CompositeId, BitFieldId, BitMaskId), for every constructible
key and any positive generation width. -/
theorem c9_next_generation_contract :
    (∀ iw gw i g, 0 < gw →
      (CId.nextGeneration iw gw (CId.make iw gw i g)).idx
          = (CId.make iw gw i g).idx ∧
      (CId.nextGeneration iw gw (CId.make iw gw i g)).gen
          = (if (CId.make iw gw i g).gen = 2 ^ gw - 1 then 1
             else (CId.make iw gw i g).gen + 1) ∧
      (CId.nextGeneration iw gw (CId.make iw gw i g)).gen ≠ 0) ∧
    (∀ ib gb i g, 0 < gb →
      (BFId.nextGeneration ib gb (BFId.make ib gb i g)).idx
          = (BFId.make ib gb i g).idx ∧
      (BFId.nextGeneration ib gb (BFId.make ib gb i g)).gen
          = (if (BFId.make ib gb i g).gen = 2 ^ gb - 1 then 1
             else (BFId.make ib gb i g).gen + 1) ∧
      (BFId.nextGeneration ib gb (BFId.make ib gb i g)).gen ≠ 0) ∧
    (∀ ib gb i g, 0 < gb →
      BMId.idx ib (BMId.nextGeneration ib gb (BMId.make ib gb i g))
          = BMId.idx ib (BMId.make ib gb i g) ∧
      BMId.gen ib (BMId.nextGeneration ib gb (BMId.make ib gb i g))
          = (if BMId.gen ib (BMId.make ib gb i g) = 2 ^ gb - 1 then 1
             else BMId.gen ib (BMId.make ib gb i g) + 1) ∧
      BMId.gen ib (BMId.nextGeneration ib gb (BMId.make ib gb i g)) ≠ 0) :=
  by
  have hpow : ∀ w : Nat, 0 < w → 2 ≤ 2 ^ w := by
    intro w h
    calc 2 = 2 ^ 1 := (pow_one 2).symm
    _ ≤ 2 ^ w := Nat.pow_le_pow_right (by norm_num) h
  have hposp : ∀ w : Nat, 0 < 2 ^ w :=
    fun w => Nat.pos_pow_of_pos _ (by norm_num)
  refine ⟨?_, ?_, ?_⟩
  · intro iw gw i g hgw
    have h2 := hpow gw hgw
    have hg : g % 2 ^ gw < 2 ^ gw := Nat.mod_lt _ (by omega)
    have hi : i % 2 ^ iw < 2 ^ iw := Nat.mod_lt _ (hposp iw)
    have hnv : nextGenVal (2 ^ gw) (g % 2 ^ gw)
        = if g % 2 ^ gw = 2 ^ gw - 1 then 1 else g % 2 ^ gw + 1 :=
      nextGenVal_char h2 hg
    have hnvlt : nextGenVal (2 ^ gw) (g % 2 ^ gw) < 2 ^ gw := nextGenVal_lt h2 hg
    refine ⟨?_, ?_, ?_⟩
    · show i % 2 ^ iw % 2 ^ iw = i % 2 ^ iw
      exact Nat.mod_eq_of_lt hi
    · show nextGenVal (2 ^ gw) (g % 2 ^ gw) % 2 ^ gw = _
      rw [Nat.mod_eq_of_lt hnvlt, hnv]; rfl
    · show nextGenVal (2 ^ gw) (g % 2 ^ gw) % 2 ^ gw ≠ 0
      rw [Nat.mod_eq_of_lt hnvlt]
      exact nextGenVal_ne_zero _ _
  · intro ib gb i g hgb
    have h2 := hpow gb hgb
    have hg : g % 2 ^ gb < 2 ^ gb := Nat.mod_lt _ (by omega)
    have hi : i % 2 ^ ib < 2 ^ ib := Nat.mod_lt _ (hposp ib)
    have hnv : nextGenVal (2 ^ gb) (g % 2 ^ gb)
        = if g % 2 ^ gb = 2 ^ gb - 1 then 1 else g % 2 ^ gb + 1 :=
      nextGenVal_char h2 hg
    have hnvlt : nextGenVal (2 ^ gb) (g % 2 ^ gb) < 2 ^ gb := nextGenVal_lt h2 hg
    refine ⟨?_, ?_, ?_⟩
    · show i % 2 ^ ib % 2 ^ ib = i % 2 ^ ib
      exact Nat.mod_eq_of_lt hi
    · show nextGenVal (2 ^ gb) (g % 2 ^ gb) % 2 ^ gb = _
      rw [Nat.mod_eq_of_lt hnvlt, hnv]; rfl
    · show nextGenVal (2 ^ gb) (g % 2 ^ gb) % 2 ^ gb ≠ 0
      rw [Nat.mod_eq_of_lt hnvlt]
      exact nextGenVal_ne_zero _ _
  · intro ib gb i g hgb
    have h2 := hpow gb hgb
    have hg : BMId.gen ib (BMId.make ib gb i g) < 2 ^ gb := by
      rw [BMId.gen_make]; exact Nat.mod_lt _ (by omega)
    have hnvlt : nextGenVal (2 ^ gb) (BMId.gen ib (BMId.make ib gb i g)) < 2 ^ gb :=
      nextGenVal_lt h2 hg
    have hilt : BMId.idx ib (BMId.make ib gb i g) < 2 ^ ib := by
      rw [BMId.idx_make]; exact Nat.mod_lt _ (hposp ib)
    unfold BMId.nextGeneration
    refine ⟨?_, ?_, ?_⟩
    · rw [BMId.idx_make, Nat.mod_eq_of_lt hilt]
    · rw [BMId.gen_make, Nat.mod_eq_of_lt hnvlt, nextGenVal_char h2 hg]
    · rw [BMId.gen_make, Nat.mod_eq_of_lt hnvlt]
      exact nextGenVal_ne_zero _ _

/-- Witness for C9 at a concrete instance: 8-bit index, 8-bit generation,
index 3, generation 255 (the maximum) in the CompositeId encoding, plus
the other two encodings at generation 7. -/
theorem c9_next_generation_contract_witness :
    (0 < 8 ∧
      ((CId.nextGeneration 8 8 (CId.make 8 8 3 255)).idx
          = (CId.make 8 8 3 255).idx ∧
        (CId.nextGeneration 8 8 (CId.make 8 8 3 255)).gen
          = (if (CId.make 8 8 3 255).gen = 2 ^ 8 - 1 then 1
             else (CId.make 8 8 3 255).gen + 1) ∧
        (CId.nextGeneration 8 8 (CId.make 8 8 3 255)).gen ≠ 0)) ∧
    (0 < 8 ∧
      (BFId.nextGeneration 8 8 (BFId.make 8 8 3 7)).gen
          = (if (BFId.make 8 8 3 7).gen = 2 ^ 8 - 1 then 1
             else (BFId.make 8 8 3 7).gen + 1)) ∧
    (0 < 8 ∧
      BMId.gen 8 (BMId.nextGeneration 8 8 (BMId.make 8 8 3 7))
          = (if BMId.gen 8 (BMId.make 8 8 3 7) = 2 ^ 8 - 1 then 1
             else BMId.gen 8 (BMId.make 8 8 3 7) + 1)) := by
  refine ⟨⟨by decide, c9_next_generation_contract.1 8 8 3 255 (by decide)⟩,
    ⟨by decide, (c9_next_generation_contract.2.1 8 8 3 7 (by decide)).2.1⟩,
    ⟨by decide, (c9_next_generation_contract.2.2 8 8 3 7 (by decide)).2.1⟩⟩

/-! ### Theorems: claim C5 -/

/-- C5 (code bug): in the right-extension case, IntSkipfield::set_skipped
writes the new run length at position idx + next − 1 instead of the new
run end idx + next, contradicting the claim, the documented
decreasing-then-mirrored pattern, and the code's own comment.

First conjunct: on the field [0, 1] (a maximal run of length L = 1
starting at slot 1, slot 0 unskipped), set_skipped(0) produces [2, 1],
whose right endpoint (position i + L = 1) holds 1, not the new run length
L + 1 = 2 required by the claim.

Second conjunct: on the field of the code's own comment
(before: 0 0 X 4 3 2 4 0 0 0), set_skipped(2) produces
0 0 5 4 3 5 4 0 0 0, not the commented result 0 0 5 4 3 2 5 0 0 0:
position 5 (an interior slot) is clobbered with 5 and position 6 (the run
end) keeps the stale value 4. -/
theorem c5_set_skipped_right_extension_bug :
    (skipSetSkippedInt [0, 1] 0 = some [2, 1] ∧
      ([2, 1] : List Nat).getD 1 0 ≠ 2) ∧
    (skipSetSkippedInt [0, 0, 0, 4, 3, 2, 4, 0, 0, 0] 2
        = some [0, 0, 5, 4, 3, 5, 4, 0, 0, 0] ∧
      some ([0, 0, 5, 4, 3, 5, 4, 0, 0, 0] : List Nat)
        ≠ some ([0, 0, 5, 4, 3, 2, 5, 0, 0, 0] : List Nat)) := by
  decide

/-! ### Theorems: claim C3 -/

/-- C3 (code bug): a SlotMap of capacity 1 with growth_constant 2 (32-bit
generations), after insert; insert.  The second insert triggers growth;
SlotMap::resize sets free_list_head_ = old_size = 1, and insert then
occupies that very slot 1 without popping the free list.  The resulting
state has free_list_head_ = 1 while slot 1 carries generation 2 > 0: an
occupied slot is the head of the free list, violating the claimed
invariant.  A third insert then fails the code's own
assert(storage_.gen(free_list_head_) == 0) on a perfectly legal
operation sequence, i.e. the model returns none. -/
theorem c3_growth_leaves_occupied_slot_on_free_list :
    (((SM.init .nullSF Nat 1 2 1 1).bind
        (SM.applyOps .nullSF 4294967296 [SMOp.ins 10, SMOp.ins 11])).map
      (fun s => (s.freeHead, s.gens.getD s.freeHead 0))) = some (1, 2) ∧
    ((SM.init .nullSF Nat 1 2 1 1).bind
        (SM.applyOps .nullSF 4294967296
          [SMOp.ins 10, SMOp.ins 11, SMOp.ins 12])) = none := by
  decide

/-! ### Theorems: claim C6 -/

/-- C6 (code bug): the same insert/remove sequence on three SlotMaps of
capacity 5 (32-bit generations) configured with IntSkipfield,
BoolSkipfield and NullSkipfield: insert 4 values (keys (0,1), (1,2),
(2,3), (3,4)), remove (2,3), remove (1,2), remove (0,1), insert again
(key (0,5)).  Because of the set_skipped off-by-one (claim C5) the
IntSkipfield field degrades to [0, 3, 2, 0, 1], so iterating with next()
jumps from slot 1 over the live slot 3: the IntSkipfield map yields only
key (0,5), while the BoolSkipfield and NullSkipfield maps both yield
(0,5) and (3,4).  Slot 3 still carries generation 4 (a live key missed
by the iteration), so the three strategies do not yield the same set of
live keys. -/
theorem c6_skipfield_iteration_divergence :
    ((SM.init .intSF Nat 5 0 1 1).bind (SM.applyOps .intSF 4294967296
        [SMOp.ins 10, SMOp.ins 11, SMOp.ins 12, SMOp.ins 13,
         SMOp.rem ⟨2, 3⟩, SMOp.rem ⟨1, 2⟩, SMOp.rem ⟨0, 1⟩, SMOp.ins 14])).bind
      (fun s => SM.collectNext .intSF s 6 ⟨0, 0⟩) = some [⟨0, 5⟩] ∧
    ((SM.init .boolSF Nat 5 0 1 1).bind (SM.applyOps .boolSF 4294967296
        [SMOp.ins 10, SMOp.ins 11, SMOp.ins 12, SMOp.ins 13,
         SMOp.rem ⟨2, 3⟩, SMOp.rem ⟨1, 2⟩, SMOp.rem ⟨0, 1⟩, SMOp.ins 14])).bind
      (fun s => SM.collectNext .boolSF s 6 ⟨0, 0⟩)
        = some [⟨0, 5⟩, ⟨3, 4⟩] ∧
    ((SM.init .nullSF Nat 5 0 1 1).bind (SM.applyOps .nullSF 4294967296
        [SMOp.ins 10, SMOp.ins 11, SMOp.ins 12, SMOp.ins 13,
         SMOp.rem ⟨2, 3⟩, SMOp.rem ⟨1, 2⟩, SMOp.rem ⟨0, 1⟩, SMOp.ins 14])).bind
      (fun s => SM.collectNext .nullSF s 6 ⟨0, 0⟩)
        = some [⟨0, 5⟩, ⟨3, 4⟩] ∧
    ((SM.init .intSF Nat 5 0 1 1).bind (SM.applyOps .intSF 4294967296
        [SMOp.ins 10, SMOp.ins 11, SMOp.ins 12, SMOp.ins 13,
         SMOp.rem ⟨2, 3⟩, SMOp.rem ⟨1, 2⟩, SMOp.rem ⟨0, 1⟩, SMOp.ins 14])).map
      (fun s => s.gens.getD 3 0) = some 4 ∧
    (GKey.mk 3 4) ∉ ([GKey.mk 0 5] : List GKey) := by
  decide

/-! ### List access helpers -/

theorem getD_set_self {α : Type _} (l : List α) (i : Nat) (a d : α)
    (h : i < l.length) : (l.set i a).getD i d = a := by
  simp [List.getD, List.getElem?_set, h]

theorem getD_set_ne {α : Type _} (l : List α) {i j : Nat} (a d : α)
    (h : i ≠ j) : (l.set i a).getD j d = l.getD j d := by
  simp [List.getD, List.getElem?_set, h]

theorem getD_append_lt {α : Type _} (l1 l2 : List α) (i : Nat) (d : α)
    (h : i < l1.length) : (l1 ++ l2).getD i d = l1.getD i d := by
  simp [List.getD, List.getElem?_append, h]

theorem getD_append_ge {α : Type _} (l1 l2 : List α) (i : Nat) (d : α)
    (h : l1.length ≤ i) : (l1 ++ l2).getD i d = l2.getD (i - l1.length) d := by
  simp [List.getD, List.getElem?_append_right, h]

theorem getD_replicate_lt {α : Type _} (n i : Nat) (a d : α) (h : i < n) :
    (List.replicate n a).getD i d = a := by
  simp [List.getD, List.getElem?_replicate, h]

theorem getD_take_lt {α : Type _} (l : List α) (n i : Nat) (d : α)
    (h : i < n) : (l.take n).getD i d = l.getD i d := by
  simp [List.getD, List.getElem?_take, h]

theorem getD_range_map {α : Type _} (f : Nat → α) (cap j : Nat) (d : α)
    (h : j < cap) : ((List.range cap).map f).getD j d = f j := by
  have : j < (List.range cap).length := by simp [h]
  simp [List.getD, List.getElem?_map, List.getElem?_range, h]

theorem getD_dropLast_lt {α : Type _} (l : List α) (i : Nat) (d : α)
    (h : i < l.length - 1) : (l.dropLast).getD i d = l.getD i d := by
  have h2 : i < l.length := by omega
  simp [List.getD, List.getElem?_dropLast, h, List.getElem?_eq_getElem, h2]

theorem getD_oob {α : Type _} (l : List α) (i : Nat) (d : α)
    (h : l.length ≤ i) : l.getD i d = d := by
  simp [List.getD, List.getElem?_eq_none, h]

theorem length_swapList {α : Type _} (l : List α) (i j : Nat) :
    (swapList l i j).length = l.length := by
  unfold swapList
  cases l.get? i <;> cases l.get? j <;> simp

set_option maxRecDepth 4000 in
theorem getD_swapList {α : Type _} (l : List α) (i j p : Nat) (d : α)
    (hi : i < l.length) (hj : j < l.length) :
    (swapList l i j).getD p d =
      if p = i then l.getD j d
      else if p = j then l.getD i d
      else l.getD p d := by
  unfold swapList
  rw [List.get?_eq_getElem?, List.get?_eq_getElem?,
    List.getElem?_eq_getElem hi, List.getElem?_eq_getElem hj]
  simp only [List.getD, List.get?_eq_getElem?, List.getElem?_set,
    List.length_set]
  split_ifs <;> (subst_eqs; simp_all [List.getElem?_eq_getElem])

/-! ### DenseSlotMap: shape lemmas for the operations -/

theorem DSM.reserve_elim {T : Type} {s t : DSM T} {n : Nat}
    (h : DSM.reserve s n = some t) :
    n ≠ 0 ∧
    t = { s with
      indices := (s.indices.take n
          ++ (List.range (n - s.indices.length)).map
              (fun j => GKey.mk (s.indices.length + j + 1) 1)).set
        (n - 1) ⟨s.freeHead, 1⟩,
      freeHead := s.indices.length } := by
  simp only [DSM.reserve] at h
  split at h
  · exact absurd h (by simp)
  · exact ⟨by assumption, by simpa using h.symm⟩

theorem DSM.insert_elim {T : Type} {v : T} {s t : DSM T} {k : GKey}
    (h : DSM.insert v s = some (k, t)) :
    ∃ s1 : DSM T,
      ((s.indices.length ≠ s.data.length ∧ s1 = s) ∨
        (s.indices.length = s.data.length ∧
          s.indices.length < s.data.length * s.gfNum / s.gfDen + s.gc ∧
          DSM.reserve s (s.data.length * s.gfNum / s.gfDen + s.gc) = some s1)) ∧
      s1.freeHead < s1.indices.length ∧
      k = ⟨s1.freeHead, (s1.indices.getD s1.freeHead ⟨0, 0⟩).gen⟩ ∧
      t = { s1 with
        data := s1.data ++ [v],
        backrefs := s1.backrefs ++ [s1.freeHead],
        indices := s1.indices.set s1.freeHead
          ⟨s1.data.length, (s1.indices.getD s1.freeHead ⟨0, 0⟩).gen⟩,
        freeHead := (s1.indices.getD s1.freeHead ⟨0, 0⟩).idx } := by
  simp only [DSM.insert] at h
  split at h
  · rename_i hfull
    split at h
    · exact absurd h (by simp)
    · rename_i hgrow
      cases hres : DSM.reserve s (s.data.length * s.gfNum / s.gfDen + s.gc) with
      | none => rw [hres] at h; simp at h
      | some s1 =>
          rw [hres] at h
          simp only [Option.some_bind] at h
          split at h
          · exact absurd h (by simp)
          · rename_i hlt
            simp only [Option.some.injEq, Prod.mk.injEq] at h
            exact ⟨s1, Or.inr ⟨hfull, Nat.not_le.mp hgrow, rfl⟩,
              Nat.not_le.mp hlt, h.1.symm, h.2.symm⟩
  · rename_i hnfull
    simp only [Option.some_bind] at h
    split at h
    · exact absurd h (by simp)
    · rename_i hlt
      simp only [Option.some.injEq, Prod.mk.injEq] at h
      exact ⟨s, Or.inl ⟨hnfull, rfl⟩, Nat.not_le.mp hlt, h.1.symm, h.2.symm⟩

theorem DSM.remove_false_elim {T : Type} {M : Nat} {k : GKey} {s t : DSM T}
    (h : DSM.remove M k s = some (false, t)) :
    t = s ∧ k.idx < s.indices.length ∧
      (s.indices.getD k.idx ⟨0, 0⟩).gen ≠ k.gen := by
  simp only [DSM.remove] at h
  split at h
  · exact absurd h (by simp)
  · rename_i hidx
    split at h
    · rename_i hgen
      simp only [Option.some.injEq, Prod.mk.injEq] at h
      exact ⟨h.2.symm, by omega, hgen⟩
    · rename_i hgen
      split at h
      · exact absurd h (by simp)
      · split at h
        · exact absurd h (by simp)
        · split at h
          · exact absurd h (by simp)
          · split at h
            · exact absurd h (by simp)
            · simp at h

theorem DSM.remove_true_elim {T : Type} {M : Nat} {k : GKey} {s t : DSM T}
    (h : DSM.remove M k s = some (true, t)) :
    k.idx < s.indices.length ∧
    (s.indices.getD k.idx ⟨0, 0⟩).gen = k.gen ∧
    0 < s.data.length ∧
    (s.indices.getD k.idx ⟨0, 0⟩).idx < s.data.length ∧
    s.data.length - 1 < s.backrefs.length ∧
    (s.indices.getD k.idx ⟨0, 0⟩).idx < s.backrefs.length ∧
    (swapList s.backrefs (s.indices.getD k.idx ⟨0, 0⟩).idx
        (s.data.length - 1)).getD (s.indices.getD k.idx ⟨0, 0⟩).idx 0
      < s.indices.length ∧
    t = { s with
      data := (swapList s.data (s.indices.getD k.idx ⟨0, 0⟩).idx
        (s.data.length - 1)).dropLast,
      backrefs := (swapList s.backrefs (s.indices.getD k.idx ⟨0, 0⟩).idx
        (s.data.length - 1)).dropLast,
      indices := (s.indices.set
          ((swapList s.backrefs (s.indices.getD k.idx ⟨0, 0⟩).idx
            (s.data.length - 1)).getD (s.indices.getD k.idx ⟨0, 0⟩).idx 0)
          ⟨(s.indices.getD k.idx ⟨0, 0⟩).idx,
            (s.indices.getD
              ((swapList s.backrefs (s.indices.getD k.idx ⟨0, 0⟩).idx
                (s.data.length - 1)).getD (s.indices.getD k.idx ⟨0, 0⟩).idx 0)
              ⟨0, 0⟩).gen⟩).set
        k.idx (GKey.nextGeneration M ⟨s.freeHead, k.gen⟩),
      freeHead := k.idx } := by
  simp only [DSM.remove] at h
  split at h
  · exact absurd h (by simp)
  · rename_i hidx
    split at h
    · simp at h
    · rename_i hgen
      split at h
      · exact absurd h (by simp)
      · rename_i hdata
        split at h
        · exact absurd h (by simp)
        · rename_i hswap
          split at h
          · exact absurd h (by simp)
          · rename_i hbr
            split at h
            · exact absurd h (by simp)
            · rename_i hbackref
              simp only [Option.some.injEq, Prod.mk.injEq] at h
              push_neg at hbr
              refine ⟨by omega, by omega, by omega, by omega,
                by omega, by omega, by omega, h.2.symm⟩

/-! ### Theorems: claim C10 -/

theorem genPos_init (T : Type) (cap gc gfNum gfDen : Nat) :
    (DSM.init T cap gc gfNum gfDen).genPos := by
  intro j hj
  simp only [DSM.init, List.length_map, List.length_range] at hj ⊢
  rw [getD_range_map _ _ _ _ hj]
  simp

theorem genPos_reserve {T : Type} {s t : DSM T} {n : Nat}
    (hs : s.genPos) (h : DSM.reserve s n = some t) : t.genPos := by
  obtain ⟨hn, rfl⟩ := DSM.reserve_elim h
  intro j hj
  simp only [List.length_set, List.length_append, List.length_take,
    List.length_map, List.length_range] at hj ⊢
  by_cases hlast : j = n - 1
  · subst hlast
    rw [getD_set_self _ _ _ _ (by simp; omega)]
    simp
  · rw [getD_set_ne _ _ _ (fun e => hlast e.symm)]
    by_cases hleft : j < (s.indices.take n).length
    · rw [getD_append_lt _ _ _ _ hleft]
      rw [List.length_take] at hleft
      rw [getD_take_lt _ _ _ _ (by omega)]
      exact hs j (by omega)
    · push_neg at hleft
      rw [getD_append_ge _ _ _ _ hleft]
      rw [List.length_take] at hleft
      rw [getD_range_map _ _ _ _ (by simp at hj ⊢; omega)]
      simp

theorem genPos_insert {T : Type} {v : T} {s t : DSM T} {k : GKey}
    (hs : s.genPos) (h : DSM.insert v s = some (k, t)) : t.genPos := by
  obtain ⟨s1, hgrow, hfh, hk, rfl⟩ := DSM.insert_elim h
  have hs1 : s1.genPos := by
    rcases hgrow with ⟨_, rfl⟩ | ⟨_, _, hres⟩
    · exact hs
    · exact genPos_reserve hs hres
  intro j hj
  simp only [List.length_set] at hj
  by_cases hji : j = s1.freeHead
  · subst hji
    rw [getD_set_self _ _ _ _ hfh]
    exact hs1 _ hfh
  · rw [getD_set_ne _ _ _ (fun e => hji e.symm)]
    exact hs1 j hj

theorem genPos_remove {T : Type} {M : Nat} {k : GKey} {s t : DSM T}
    {b : Bool} (hs : s.genPos) (h : DSM.remove M k s = some (b, t)) :
    t.genPos := by
  cases b with
  | false =>
      obtain ⟨rfl, _, _⟩ := DSM.remove_false_elim h
      exact hs
  | true =>
      obtain ⟨hidx, hgen, hdata, hdi, hbr1, hbr2, hback, rfl⟩ :=
        DSM.remove_true_elim h
      intro j hj
      simp only [List.length_set] at hj
      by_cases hjk : j = k.idx
      · subst hjk
        rw [getD_set_self _ _ _ _ (by simpa using hj)]
        exact nextGenVal_ne_zero M k.gen
      · rw [getD_set_ne _ _ _ (fun e => hjk e.symm)]
        by_cases hjb : j = (swapList s.backrefs
            (s.indices.getD k.idx ⟨0, 0⟩).idx (s.data.length - 1)).getD
            (s.indices.getD k.idx ⟨0, 0⟩).idx 0
        · subst hjb
          rw [getD_set_self _ _ _ _ hback]
          exact hs _ hback
        · rw [getD_set_ne _ _ _ (fun e => hjb e.symm)]
          exact hs j (by simpa using hj)

theorem genPos_applyOp {T : Type} {M : Nat} {op : DOp T} {s t : DSM T}
    (hs : s.genPos) (h : DSM.applyOp M op s = some t) : t.genPos := by
  cases op with
  | ins v =>
      simp only [DSM.applyOp] at h
      cases hins : DSM.insert v s with
      | none => rw [hins] at h; simp at h
      | some p =>
          rw [hins] at h
          obtain rfl : p.2 = t := by simpa using h
          exact genPos_insert hs
            (show DSM.insert v s = some (p.1, p.2) from hins)
  | rem k =>
      simp only [DSM.applyOp] at h
      cases hrem : DSM.remove M k s with
      | none => rw [hrem] at h; simp at h
      | some p =>
          rw [hrem] at h
          obtain rfl : p.2 = t := by simpa using h
          exact genPos_remove hs
            (show DSM.remove M k s = some (p.1, p.2) from hrem)

theorem genPos_applyOps {T : Type} {M : Nat} {ops : List (DOp T)}
    {s t : DSM T} (hs : s.genPos) (h : DSM.applyOps M ops s = some t) :
    t.genPos := by
  induction ops generalizing s with
  | nil => simp only [DSM.applyOps, Option.some.injEq] at h; exact h ▸ hs
  | cons op ops ih =>
      simp only [DSM.applyOps] at h
      cases hop : DSM.applyOp M op s with
      | none => rw [hop] at h; simp at h
      | some s2 =>
          rw [hop] at h
          simp only [Option.some_bind] at h
          exact ih (genPos_applyOp hs hop) h

/-- C10: in every state of a DenseSlotMap reachable from the constructor
by insert/remove, every indices_ entry carries a nonzero generation
(entries are initialized with generation 1 and removal advances them with
next_generation, which never yields 0); consequently every key with
generation 0 — such as a default-constructed key — is reported absent by
contains and find, even though contains compares generations only. -/
theorem c10_zero_generation_keys_rejected :
    ∀ (T : Type) (M cap gc gfNum gfDen : Nat) (ops : List (DOp T))
      (t : DSM T),
      DSM.applyOps M ops (DSM.init T cap gc gfNum gfDen) = some t →
      (∀ j, j < t.indices.length → (t.indices.getD j ⟨0, 0⟩).gen ≠ 0) ∧
      (∀ i, i < t.indices.length →
        DSM.contains ⟨i, 0⟩ t = some false ∧
        DSM.find ⟨i, 0⟩ t = some none) := by
  intro T M cap gc gfNum gfDen ops t h
  have hpos : t.genPos := genPos_applyOps (genPos_init T cap gc gfNum gfDen) h
  refine ⟨hpos, fun i hi => ?_⟩
  have hc : DSM.contains (⟨i, 0⟩ : GKey) t = some false := by
    simp only [DSM.contains, if_neg (Nat.not_le.mpr hi)]
    have := hpos i hi
    simp only [Option.some.injEq]
    exact beq_eq_false_iff_ne.mpr this
  exact ⟨hc, by simp [DSM.find, hc]⟩

/-- Witness for C10: the empty operation sequence on a fresh capacity-2
map; a default-constructed key (0, 0) is reported absent. -/
theorem c10_zero_generation_keys_rejected_witness :
    DSM.applyOps 4294967296 ([] : List (DOp Nat)) (DSM.init Nat 2 0 1 1)
        = some (DSM.init Nat 2 0 1 1) ∧
    DSM.contains ⟨0, 0⟩ (DSM.init Nat 2 0 1 1) = some false ∧
    DSM.find ⟨0, 0⟩ (DSM.init Nat 2 0 1 1) = some none := by
  refine ⟨rfl, ?_, ?_⟩
  · exact ((c10_zero_generation_keys_rejected Nat 4294967296 2 0 1 1 [] _
      rfl).2 0 (by decide)).1
  · exact ((c10_zero_generation_keys_rejected Nat 4294967296 2 0 1 1 [] _
      rfl).2 0 (by decide)).2

/-! ### Theorems: claim C7 -/

/-- C7: for both maps and every key whose index is in range (and, for the
DenseSlotMap, any state whose stored generations are nonzero — the C10
invariant), remove(k) returns false exactly when k is the invalid
sentinel (generation 0) or k's generation differs from the generation
currently stored for slot k.idx(); and the false result leaves the map
completely unchanged (it is reported as a return value, not an
exception). -/
theorem c7_remove_rejects_stale_keys_unchanged :
    (∀ (T : Type) (impl : SkipImpl) (s : SM T) (k : GKey),
      k.idx < s.cells.length →
      ((∃ s2, SM.remove impl k s = some (false, s2)) ↔
        (k.gen = 0 ∨ k.gen ≠ s.gens.getD k.idx 0)) ∧
      (∀ s2, SM.remove impl k s = some (false, s2) → s2 = s)) ∧
    (∀ (T : Type) (M : Nat) (s : DSM T) (k : GKey),
      k.idx < s.indices.length →
      (∀ j, j < s.indices.length → (s.indices.getD j ⟨0, 0⟩).gen ≠ 0) →
      ((∃ s2, DSM.remove M k s = some (false, s2)) ↔
        (k.gen = 0 ∨ k.gen ≠ (s.indices.getD k.idx ⟨0, 0⟩).gen)) ∧
      (∀ s2, DSM.remove M k s = some (false, s2) → s2 = s)) := by
  constructor
  · intro T impl s k hidx
    refine ⟨⟨?_, ?_⟩, ?_⟩
    · rintro ⟨s2, h⟩
      simp only [SM.remove] at h
      split at h
      · simp at h
      · split at h
        · rename_i hcond
          exact hcond
        · split at h
          · cases hsk : skipSetSkipped impl s.skip k.idx with
            | none => rw [hsk] at h; simp at h
            | some sk => rw [hsk] at h; simp at h
          · simp at h
    · intro hcond
      refine ⟨s, ?_⟩
      simp only [SM.remove]
      rw [if_neg (Nat.not_le.mpr hidx), if_pos hcond]
    · intro s2 h
      simp only [SM.remove] at h
      split at h
      · simp at h
      · split at h
        · simp only [Option.some.injEq, Prod.mk.injEq] at h
          exact h.2.symm
        · split at h
          · cases hsk : skipSetSkipped impl s.skip k.idx with
            | none => rw [hsk] at h; simp at h
            | some sk => rw [hsk] at h; simp at h
          · simp at h
  · intro T M s k hidx hgen
    have hne_of : (k.gen = 0 ∨ k.gen ≠ (s.indices.getD k.idx ⟨0, 0⟩).gen) →
        (s.indices.getD k.idx ⟨0, 0⟩).gen ≠ k.gen := by
      rintro (h0 | hne)
      · rw [h0]; exact hgen k.idx hidx
      · exact fun e => hne e.symm
    refine ⟨⟨?_, ?_⟩, ?_⟩
    · rintro ⟨s2, h⟩
      have := DSM.remove_false_elim h
      exact Or.inr (fun e => this.2.2 e.symm)
    · intro hcond
      refine ⟨s, ?_⟩
      simp only [DSM.remove]
      rw [if_neg (Nat.not_le.mpr hidx), if_pos (hne_of hcond)]
    · intro s2 h
      exact (DSM.remove_false_elim h).1

/-- Witness for C7: a capacity-1 sparse map (value 7 in slot 0 at
generation 0, i.e. a fresh free slot) rejects the never-issued key
(0, 5), and a fresh capacity-1 dense map rejects the invalid sentinel
(0, 0); both leave the map unchanged. -/
theorem c7_remove_rejects_stale_keys_unchanged_witness :
    (∃ s2, SM.remove .nullSF ⟨0, 5⟩
      ({ cells := [Cell.link 1], gens := [0], skip := [], sz := 0,
         freeHead := 0, gc := 0, gfNum := 1, gfDen := 1, genCtr := 1 }
         : SM Nat) = some (false, s2)) ∧
    (∃ s2, DSM.remove 4294967296 ⟨0, 0⟩ (DSM.init Nat 1 0 1 1)
      = some (false, s2)) := by
  constructor
  · exact ((c7_remove_rejects_stale_keys_unchanged.1 Nat .nullSF
      _ ⟨0, 5⟩ (by decide)).1).mpr (by decide)
  · exact ((c7_remove_rejects_stale_keys_unchanged.2 Nat 4294967296
      (DSM.init Nat 1 0 1 1) ⟨0, 0⟩ (by decide) (by decide)).1).mpr
      (Or.inl rfl)

/-! ### Theorems: claim C8 -/

/-- C8: growth policy enforcement.  (1) A sparse SlotMap whose free list
is exhausted computes floor(capacity * growth_factor) + growth_constant;
if that does not exceed the capacity, insert fails the fatal assertion
(none) instead of overwriting live state.  (2) With growth_factor 1 and
growth_constant 2 (and the default NullSkipfield), the insert beyond
capacity succeeds and the capacity grows by exactly 2.  (3) and (4): the
same two facts for the DenseSlotMap, whose exhaustion test is
size() == capacity(). -/
theorem c8_growth_policy_enforcement :
    (∀ (T : Type) (impl : SkipImpl) (M : Nat) (s : SM T) (v : T),
      s.cells.length ≤ s.freeHead →
      s.cells.length * s.gfNum / s.gfDen + s.gc ≤ s.cells.length →
      SM.insert impl M v s = none) ∧
    (∀ (T : Type) (M : Nat) (s : SM T) (v : T),
      s.freeHead = s.cells.length →
      s.gens.length = s.cells.length →
      s.gfNum = 1 → s.gfDen = 1 → s.gc = 2 →
      ∃ k s2, SM.insert .nullSF M v s = some (k, s2) ∧
        s2.cells.length = s.cells.length + 2) ∧
    (∀ (T : Type) (s : DSM T) (v : T),
      s.indices.length = s.data.length →
      s.data.length * s.gfNum / s.gfDen + s.gc ≤ s.indices.length →
      DSM.insert v s = none) ∧
    (∀ (T : Type) (s : DSM T) (v : T),
      s.indices.length = s.data.length →
      s.gfNum = 1 → s.gfDen = 1 → s.gc = 2 →
      ∃ k s2, DSM.insert v s = some (k, s2) ∧
        s2.indices.length = s.indices.length + 2) := by
  refine ⟨?_, ?_, ?_, ?_⟩
  · intro T impl M s v hex hng
    simp only [SM.insert]
    rw [if_pos hex, if_pos hng]
    rfl
  · intro T M s v hfh hlen h1 h2 h3
    have hnew : s.cells.length * s.gfNum / s.gfDen + s.gc
        = s.cells.length + 2 := by
      rw [h1, h2, h3, Nat.mul_one, Nat.div_one]
    have hg0 : (resizeList s.gens (s.cells.length + 2)).getD
        s.cells.length 0 = 0 := by
      unfold resizeList
      rw [getD_take_lt _ _ _ _ (by omega)]
      rw [getD_append_ge _ _ _ _ (by omega)]
      rw [getD_replicate_lt _ _ _ _ (by omega)]
    refine ⟨⟨s.cells.length, s.genCtr⟩,
      { cells := ((s.cells
            ++ (List.range (s.cells.length + 2 - s.cells.length)).map
              (fun j => Cell.link (s.cells.length + j + 1))).set
            (s.cells.length + 2 - 1) (Cell.link s.cells.length)).set
          s.cells.length (Cell.val v),
        gens := (resizeList s.gens (s.cells.length + 2)).set
          s.cells.length s.genCtr,
        skip := s.skip, sz := s.sz + 1, freeHead := s.cells.length,
        gc := s.gc, gfNum := s.gfNum, gfDen := s.gfDen,
        genCtr := nextGenVal M s.genCtr }, ?_, ?_⟩
    · simp only [SM.insert, SM.resize, skipResize, skipSetNotSkipped]
      rw [hfh, hnew]
      split
      · split
        · rename_i h
          omega
        · simp only [Option.some_bind]
          split
          · rename_i h
            simp only [List.length_set, List.length_append,
              List.length_map, List.length_range] at h
            omega
          · split
            · rename_i h
              rw [hg0] at h
              exact absurd rfl h
            · simp only [Option.some_bind]
      · rename_i h
        omega
    · simp only [List.length_set, List.length_append, List.length_map,
        List.length_range]
      omega
  · intro T s v hfull hng
    simp only [DSM.insert]
    rw [if_pos hfull, if_pos hng]
    rfl
  · intro T s v hfull h1 h2 h3
    have hnew : s.data.length * s.gfNum / s.gfDen + s.gc
        = s.data.length + 2 := by
      rw [h1, h2, h3, Nat.mul_one, Nat.div_one]
    refine ⟨⟨s.indices.length,
        (((s.indices.take (s.data.length + 2)
            ++ (List.range (s.data.length + 2 - s.indices.length)).map
              (fun j => GKey.mk (s.indices.length + j + 1) 1)).set
            (s.data.length + 2 - 1) ⟨s.freeHead, 1⟩).getD
          s.indices.length ⟨0, 0⟩).gen⟩,
      { data := s.data ++ [v],
        indices := ((s.indices.take (s.data.length + 2)
            ++ (List.range (s.data.length + 2 - s.indices.length)).map
              (fun j => GKey.mk (s.indices.length + j + 1) 1)).set
            (s.data.length + 2 - 1) ⟨s.freeHead, 1⟩).set
          s.indices.length
          ⟨s.data.length,
            (((s.indices.take (s.data.length + 2)
                ++ (List.range (s.data.length + 2 - s.indices.length)).map
                  (fun j => GKey.mk (s.indices.length + j + 1) 1)).set
                (s.data.length + 2 - 1) ⟨s.freeHead, 1⟩).getD
              s.indices.length ⟨0, 0⟩).gen⟩,
        backrefs := s.backrefs ++ [s.indices.length],
        freeHead := (((s.indices.take (s.data.length + 2)
            ++ (List.range (s.data.length + 2 - s.indices.length)).map
              (fun j => GKey.mk (s.indices.length + j + 1) 1)).set
            (s.data.length + 2 - 1) ⟨s.freeHead, 1⟩).getD
          s.indices.length ⟨0, 0⟩).idx,
        gc := s.gc, gfNum := s.gfNum, gfDen := s.gfDen }, ?_, ?_⟩
    · simp only [DSM.insert, DSM.reserve]
      rw [hnew]
      split
      · split
        · rename_i h
          omega
        · split
          · rename_i h
            omega
          · simp only [Option.some_bind]
            split
            · rename_i h
              simp only [List.length_set, List.length_append,
                List.length_map, List.length_range,
                List.length_take] at h
              omega
            · rfl
      · rename_i h
        exact absurd hfull h
    · simp only [List.length_set, List.length_append, List.length_map,
        List.length_range, List.length_take]
      omega

/-- Witness for C8: a full capacity-1 sparse map with the default
(non-growing) policy rejects insert fatally; with growth_constant 2 both
maps grow from capacity 1 to 3 on the insert beyond capacity. -/
theorem c8_growth_policy_enforcement_witness :
    SM.insert .nullSF 4294967296 (7 : Nat)
      { cells := [Cell.val 5], gens := [1], skip := [], sz := 1,
        freeHead := 1, gc := 0, gfNum := 1, gfDen := 1, genCtr := 2 }
      = none ∧
    (∃ k s2, SM.insert .nullSF 4294967296 (7 : Nat)
      { cells := [Cell.val 5], gens := [1], skip := [], sz := 1,
        freeHead := 1, gc := 2, gfNum := 1, gfDen := 1, genCtr := 2 }
      = some (k, s2) ∧ s2.cells.length = 1 + 2) ∧
    DSM.insert (7 : Nat)
      { data := [5], indices := [⟨0, 1⟩], backrefs := [0],
        freeHead := 1, gc := 0, gfNum := 1, gfDen := 1 } = none ∧
    (∃ k s2, DSM.insert (7 : Nat)
      { data := [5], indices := [⟨0, 1⟩], backrefs := [0],
        freeHead := 1, gc := 2, gfNum := 1, gfDen := 1 }
      = some (k, s2) ∧ s2.indices.length = 1 + 2) := by
  refine ⟨?_, ?_, ?_, ?_⟩
  · exact c8_growth_policy_enforcement.1 Nat .nullSF 4294967296
      ({ cells := [Cell.val 5], gens := [1], skip := [], sz := 1,
         freeHead := 1, gc := 0, gfNum := 1, gfDen := 1, genCtr := 2 }
        : SM Nat) 7 (by decide) (by decide)
  · have h := c8_growth_policy_enforcement.2.1 Nat 4294967296
      ({ cells := [Cell.val 5], gens := [1], skip := [], sz := 1,
         freeHead := 1, gc := 2, gfNum := 1, gfDen := 1, genCtr := 2 }
        : SM Nat) 7 (by decide) (by decide) (by decide) (by decide)
        (by decide)
    exact h
  · exact c8_growth_policy_enforcement.2.2.1 Nat
      ({ data := [5], indices := [⟨0, 1⟩], backrefs := [0],
         freeHead := 1, gc := 0, gfNum := 1, gfDen := 1 } : DSM Nat) 7
      (by decide) (by decide)
  · have h := c8_growth_policy_enforcement.2.2.2 Nat
      ({ data := [5], indices := [⟨0, 1⟩], backrefs := [0],
         freeHead := 1, gc := 2, gfNum := 1, gfDen := 1 } : DSM Nat) 7
      (by decide) (by decide) (by decide) (by decide)
    exact h

/-! ### Theorems: claim C1 -/

theorem length_resizeList (l : List Nat) (n : Nat) :
    (resizeList l n).length = n := by
  unfold resizeList
  simp
  omega

theorem getD_resizeList_lt (l : List Nat) (n i : Nat) (hi : i < l.length)
    (hn : i < n) : (resizeList l n).getD i 0 = l.getD i 0 := by
  unfold resizeList
  rw [getD_take_lt _ _ _ _ hn, getD_append_lt _ _ _ _ hi]

theorem nextGenVal_lt_any {M : Nat} (g : Nat) (hM : 2 ≤ M) :
    nextGenVal M g < M := by
  have hlt : (g + 1) % M < M := Nat.mod_lt _ (by omega)
  by_cases h : (g + 1) % M = 0 <;> simp [nextGenVal, h] <;> omega

theorem cycDist_eq_zero_iff {M a b : Nat} (ha : 1 ≤ a) (haM : a < M)
    (hb : 1 ≤ b) (hbM : b < M) : cycDist M a b = 0 ↔ a = b := by
  unfold cycDist
  split <;> omega

theorem cycDist_nextGenVal {M a c : Nat} (hM : 3 ≤ M) (ha : 1 ≤ a)
    (haM : a < M) (hc : 1 ≤ c) (hcM : c < M)
    (hbound : cycDist M a c ≤ M - 3) :
    cycDist M a (nextGenVal M c) = cycDist M a c + 1 := by
  rw [nextGenVal_char (by omega) hcM]
  unfold cycDist at hbound ⊢
  split_ifs at hbound ⊢ <;> omega

theorem SM.resize_elim {T : Type} {impl : SkipImpl} {s t : SM T} {n : Nat}
    (h : SM.resize impl s n = some t) :
    s.cells.length < n ∧ ∃ sk, skipResize impl s.skip n true = some sk ∧
    t = { s with
      cells := (s.cells ++ (List.range (n - s.cells.length)).map
          (fun j => Cell.link (s.cells.length + j + 1))).set
        (n - 1) (Cell.link s.freeHead),
      gens := resizeList s.gens n,
      skip := sk,
      freeHead := s.cells.length } := by
  simp only [SM.resize] at h
  split at h
  · simp at h
  · rename_i hle
    cases hsk : skipResize impl s.skip n true with
    | none => rw [hsk] at h; simp at h
    | some sk =>
        rw [hsk] at h
        simp only [Option.some_bind, Option.some.injEq] at h
        exact ⟨by omega, sk, rfl, h.symm⟩

theorem SM.insert_unfold {T : Type} {impl : SkipImpl} {M : Nat} {v : T}
    {s t : SM T} {k2 : GKey} (h : SM.insert impl M v s = some (k2, t)) :
    ∃ s1 sk,
      ((s.cells.length ≤ s.freeHead ∧
          SM.resize impl s (s.cells.length * s.gfNum / s.gfDen + s.gc)
            = some s1) ∨
        (s.freeHead < s.cells.length ∧
          s1 = { s with freeHead := s1.freeHead })) ∧
      s1.genCtr = s.genCtr ∧
      s.freeHead < s1.cells.length ∧
      s1.gens.getD s.freeHead 0 = 0 ∧
      skipSetNotSkipped impl s1.skip s.freeHead = some sk ∧
      k2 = ⟨s.freeHead, s1.genCtr⟩ ∧
      t = { s1 with
        cells := s1.cells.set s.freeHead (Cell.val v),
        skip := sk,
        gens := s1.gens.set s.freeHead s1.genCtr,
        sz := s1.sz + 1,
        genCtr := nextGenVal M s1.genCtr } := by
  simp only [SM.insert] at h
  split at h
  · rename_i hex
    split at h
    · simp at h
    · rename_i hgrow
      cases hres : SM.resize impl s (s.cells.length * s.gfNum / s.gfDen + s.gc) with
      | none => rw [hres] at h; simp at h
      | some s1 =>
          rw [hres] at h
          simp only [Option.some_bind] at h
          split at h
          · simp at h
          · rename_i hfhlt
            split at h
            · simp at h
            · rename_i hg0
              cases hsk : skipSetNotSkipped impl s1.skip s.freeHead with
              | none => rw [hsk] at h; simp at h
              | some sk =>
                  rw [hsk] at h
                  simp only [Option.some_bind, Option.some.injEq,
                    Prod.mk.injEq] at h
                  refine ⟨s1, sk, Or.inl ⟨hex, rfl⟩, ?_, by omega,
                    by omega, hsk, h.1.symm, h.2.symm⟩
                  have := (SM.resize_elim hres).2
                  obtain ⟨sk2, _, he⟩ := this
                  rw [he]
  · rename_i hlt
    split at h
    · simp at h
    · rename_i hg0s
      split at h
      · rename_i nxt hcell
        -- the post-bind bound and generation checks reduce to the same
        -- conditions already split above, so h is the final bind already
        simp only [Option.some_bind] at h
        cases hsk : skipSetNotSkipped impl s.skip s.freeHead with
        | none => rw [hsk] at h; simp at h
        | some sk =>
            rw [hsk] at h
            simp only [Option.some_bind] at h
            split at h
            · simp at h
            · rename_i hA
              simp only [Option.some.injEq, Prod.mk.injEq] at h
              refine ⟨{ s with freeHead := nxt }, sk,
                Or.inr ⟨by omega, rfl⟩, rfl,
                (show s.freeHead < s.cells.length by omega),
                (show s.gens.getD s.freeHead 0 = 0 by omega), hsk,
                h.1.symm, h.2.symm⟩
      · simp at h

theorem SM.remove_false_unfold {T : Type} {impl : SkipImpl} {k2 : GKey}
    {s t : SM T} (h : SM.remove impl k2 s = some (false, t)) :
    t = s := by
  simp only [SM.remove] at h
  split at h
  · simp at h
  · split at h
    · simp only [Option.some.injEq, Prod.mk.injEq] at h
      exact h.2.symm
    · split at h
      · cases hsk : skipSetSkipped impl s.skip k2.idx with
        | none => rw [hsk] at h; simp at h
        | some sk => rw [hsk] at h; simp at h
      · simp at h

theorem SM.remove_true_unfold {T : Type} {impl : SkipImpl} {k2 : GKey}
    {s t : SM T} (h : SM.remove impl k2 s = some (true, t)) :
    k2.idx < s.cells.length ∧ k2.gen ≠ 0 ∧
    s.gens.getD k2.idx 0 = k2.gen ∧
    ∃ sk, skipSetSkipped impl s.skip k2.idx = some sk ∧
      t = { s with
        cells := s.cells.set k2.idx (Cell.link s.freeHead),
        freeHead := k2.idx,
        gens := s.gens.set k2.idx 0,
        skip := sk,
        sz := s.sz - 1 } := by
  simp only [SM.remove] at h
  split at h
  · simp at h
  · rename_i hidx
    split at h
    · simp at h
    · rename_i hcond
      push_neg at hcond
      split at h
      · cases hsk : skipSetSkipped impl s.skip k2.idx with
        | none => rw [hsk] at h; simp at h
        | some sk =>
            rw [hsk] at h
            simp only [Option.some_bind, Option.some.injEq,
              Prod.mk.injEq] at h
            exact ⟨by omega, hcond.1, hcond.2.symm, sk, rfl, h.2.symm⟩
      · simp at h

theorem cycDist_self (M a : Nat) : cycDist M a a = 0 := by
  unfold cycDist
  simp

/-- One-step-at-a-time preservation of the sparse stale-key invariant:
as long as the number of further inserts cannot cycle the global
generation counter back onto k's generation, slot k.idx never reports
generation k.gen again. -/
theorem sm_stale_preserved {T : Type} (impl : SkipImpl) (M : Nat)
    (k : GKey) (hM : 2 ≤ M) (hk : 1 ≤ k.gen) (hkM : k.gen < M) :
    ∀ (ops : List (SMOp T)) (s t : SM T),
      SM.staleInv M k s →
      cycDist M k.gen s.genCtr + smInsCount ops ≤ M - 2 →
      SM.applyOps impl M ops s = some t →
      SM.staleInv M k t := by
  intro ops
  induction ops with
  | nil =>
      intro s t hinv hbd h
      simp only [SM.applyOps, Option.some.injEq] at h
      exact h ▸ hinv
  | cons op ops ih =>
      intro s t hinv hbd h
      simp only [SM.applyOps] at h
      cases hop : SM.applyOp impl M op s with
      | none => rw [hop] at h; simp at h
      | some s2 =>
          rw [hop] at h
          simp only [Option.some_bind] at h
          obtain ⟨hsync, hidx, hne, hc1, hcM, hcnk⟩ := hinv
          have hd1 : 1 ≤ cycDist M k.gen s.genCtr := by
            rcases Nat.eq_zero_or_pos (cycDist M k.gen s.genCtr) with h0 | h1
            · exact absurd ((cycDist_eq_zero_iff hk hkM hc1 hcM).mp h0)
                (fun e => hcnk e.symm)
            · exact h1
          cases op with
          | ins v =>
              simp only [SM.applyOp] at hop
              cases hins : SM.insert impl M v s with
              | none => rw [hins] at hop; simp at hop
              | some p =>
                  obtain ⟨kk, s1s⟩ := p
                  rw [hins] at hop
                  obtain rfl : s2 = s1s := by simpa using hop.symm
                  obtain ⟨s1, sk, hpath, hctr, hfhlt, hg0, hsk, hkey, hteq⟩ :=
                    SM.insert_unfold hins
                  have hbd2 : cycDist M k.gen s.genCtr + 1 + smInsCount ops
                      ≤ M - 2 := by
                    simp only [smInsCount] at hbd
                    omega
                  have hM3 : 3 ≤ M := by omega
                  have hstep : cycDist M k.gen (nextGenVal M s.genCtr)
                      = cycDist M k.gen s.genCtr + 1 :=
                    cycDist_nextGenVal hM3 hk hkM hc1 hcM (by omega)
                  have hs1 : s1.gens.length = s1.cells.length ∧
                      s1.gens.getD k.idx 0 = s.gens.getD k.idx 0 ∧
                      s.gens.length ≤ s1.gens.length := by
                    rcases hpath with ⟨hex, hres⟩ | ⟨hlt, he⟩
                    · obtain ⟨hlt2, sk2, hsk2, he⟩ := SM.resize_elim hres
                      rw [he]
                      refine ⟨?_, ?_, ?_⟩
                      · simp only [length_resizeList, List.length_set,
                          List.length_append, List.length_map,
                          List.length_range]
                        omega
                      · exact getD_resizeList_lt _ _ _ (by omega) (by omega)
                      · simp only [length_resizeList]
                        omega
                    · rw [he]
                      exact ⟨hsync.symm ▸ rfl, rfl, le_refl _⟩
                  have hmid : SM.staleInv M k s2 := by
                    rw [hteq]
                    refine ⟨?_, ?_, ?_, ?_, ?_, ?_⟩
                    · simp only [List.length_set]
                      exact hs1.1
                    · simp only [List.length_set]
                      omega
                    · by_cases hj : s.freeHead = k.idx
                      · rw [← hj]
                        rw [getD_set_self _ _ _ _ (by omega)]
                        rw [hctr]
                        exact hcnk
                      · rw [getD_set_ne _ _ _ hj, hs1.2.1]
                        exact hne
                    · exact nextGenVal_pos M s1.genCtr
                    · exact nextGenVal_lt_any s1.genCtr hM
                    · show nextGenVal M s1.genCtr ≠ k.gen
                      rw [hctr]
                      intro e
                      have : cycDist M k.gen (nextGenVal M s.genCtr) = 0 := by
                        rw [e, cycDist_self]
                      omega
                  have hbd3 : cycDist M k.gen s2.genCtr + smInsCount ops
                      ≤ M - 2 := by
                    have : s2.genCtr = nextGenVal M s.genCtr := by
                      rw [hteq]
                      show nextGenVal M s1.genCtr = nextGenVal M s.genCtr
                      rw [hctr]
                    rw [this, hstep]
                    omega
                  exact ih s2 t hmid hbd3 h
          | rem k2 =>
              simp only [SM.applyOp] at hop
              cases hrem : SM.remove impl k2 s with
              | none => rw [hrem] at hop; simp at hop
              | some p =>
                  obtain ⟨b, s2x⟩ := p
                  rw [hrem] at hop
                  obtain rfl : s2 = s2x := by simpa using hop.symm
                  have hbd2 : cycDist M k.gen s.genCtr + smInsCount ops
                      ≤ M - 2 := by
                    simp only [smInsCount] at hbd
                    omega
                  cases b with
                  | false =>
                      have he : s2 = s := SM.remove_false_unfold hrem
                      rw [he] at h
                      exact ih s t ⟨hsync, hidx, hne, hc1, hcM, hcnk⟩ hbd2 h
                  | true =>
                      obtain ⟨hidx2, hkg2, hstored, sk, hsk, hteq⟩ :=
                        SM.remove_true_unfold hrem
                      have hmid : SM.staleInv M k s2 := by
                        rw [hteq]
                        refine ⟨?_, ?_, ?_, hc1, hcM, hcnk⟩
                        · simp only [List.length_set]
                          exact hsync
                        · simp only [List.length_set]
                          exact hidx
                        · by_cases hj : k2.idx = k.idx
                          · rw [← hj, getD_set_self _ _ _ _ (by omega)]
                            omega
                          · rw [getD_set_ne _ _ _ hj]
                            exact hne
                      have hbd3 : cycDist M k.gen s2.genCtr + smInsCount ops
                          ≤ M - 2 := by
                        have : s2.genCtr = s.genCtr := by rw [hteq]
                        rw [this]
                        omega
                      exact ih s2 t hmid hbd3 h
          | res n =>
              simp only [SM.applyOp] at hop
              obtain ⟨hlt, sk, hsk, hteq⟩ := SM.resize_elim hop
              have hmid : SM.staleInv M k s2 := by
                rw [hteq]
                refine ⟨?_, ?_, ?_, hc1, hcM, hcnk⟩
                · simp only [length_resizeList, List.length_set,
                    List.length_append, List.length_map, List.length_range]
                  omega
                · simp only [length_resizeList]
                  omega
                · rw [getD_resizeList_lt _ _ _ (by omega) (by omega)]
                  exact hne
              have hbd2 : cycDist M k.gen s2.genCtr + smInsCount ops
                  ≤ M - 2 := by
                have : s2.genCtr = s.genCtr := by rw [hteq]
                simp only [smInsCount] at hbd
                rw [this]
                omega
              exact ih s2 t hmid hbd2 h

/-- One-step-at-a-time preservation of the dense stale-key invariant:
the generation stored for slot k.idx is only ever advanced (by a
successful remove of that slot) or kept, so it cannot return to k.gen
while the number of further removes stays below the cycle length. -/
theorem dsm_stale_preserved {T : Type} (M : Nat) (k : GKey)
    (hM : 2 ≤ M) (hk : 1 ≤ k.gen) (hkM : k.gen < M) :
    ∀ (ops : List (DOp T)) (s t : DSM T),
      DSM.staleInv M k s →
      cycDist M k.gen (s.indices.getD k.idx ⟨0, 0⟩).gen + dRemCount ops
        ≤ M - 2 →
      DSM.applyOps M ops s = some t →
      DSM.staleInv M k t := by
  intro ops
  induction ops with
  | nil =>
      intro s t hinv hbd h
      simp only [DSM.applyOps, Option.some.injEq] at h
      exact h ▸ hinv
  | cons op ops ih =>
      intro s t hinv hbd h
      simp only [DSM.applyOps] at h
      cases hop : DSM.applyOp M op s with
      | none => rw [hop] at h; simp at h
      | some s2 =>
          rw [hop] at h
          simp only [Option.some_bind] at h
          obtain ⟨hidx, hg1, hgM, hgne⟩ := hinv
          have hd1 : 1 ≤ cycDist M k.gen
              (s.indices.getD k.idx ⟨0, 0⟩).gen := by
            rcases Nat.eq_zero_or_pos (cycDist M k.gen
              (s.indices.getD k.idx ⟨0, 0⟩).gen) with h0 | h1
            · exact absurd ((cycDist_eq_zero_iff hk hkM hg1 hgM).mp h0)
                (fun e => hgne e.symm)
            · exact h1
          cases op with
          | ins v =>
              simp only [DSM.applyOp] at hop
              cases hins : DSM.insert v s with
              | none => rw [hins] at hop; simp at hop
              | some p =>
                  obtain ⟨kk, s1s⟩ := p
                  rw [hins] at hop
                  obtain rfl : s2 = s1s := by simpa using hop.symm
                  obtain ⟨s1, hpath, hfh, hkey, hteq⟩ :=
                    DSM.insert_elim hins
                  have hs1 : s1.indices.getD k.idx ⟨0, 0⟩
                        = s.indices.getD k.idx ⟨0, 0⟩ ∧
                      s.indices.length ≤ s1.indices.length := by
                    rcases hpath with ⟨hne2, he⟩ | ⟨hfull, hgrow, hres⟩
                    · rw [he]
                      exact ⟨rfl, le_refl _⟩
                    · obtain ⟨hn0, he⟩ := DSM.reserve_elim hres
                      rw [he]
                      constructor
                      · rw [getD_set_ne _ _ _ (by omega)]
                        rw [getD_append_lt _ _ _ _ (by
                          simp only [List.length_take]
                          omega)]
                        rw [getD_take_lt _ _ _ _ (by omega)]
                      · simp only [List.length_set, List.length_append,
                          List.length_take, List.length_map,
                          List.length_range]
                        omega
                  have hmid : DSM.staleInv M k s2 := by
                    rw [hteq]
                    have hgetk : (s1.indices.set s1.freeHead
                        ⟨s1.data.length,
                          (s1.indices.getD s1.freeHead ⟨0, 0⟩).gen⟩).getD
                        k.idx ⟨0, 0⟩
                        = ⟨if s1.freeHead = k.idx then s1.data.length
                            else (s1.indices.getD k.idx ⟨0, 0⟩).idx,
                          (s1.indices.getD k.idx ⟨0, 0⟩).gen⟩ := by
                      by_cases hj : s1.freeHead = k.idx
                      · rw [if_pos hj, ← hj,
                          getD_set_self _ _ _ _ hfh, hj]
                      · rw [if_neg hj, getD_set_ne _ _ _ hj]
                    refine ⟨?_, ?_, ?_, ?_⟩
                    · simp only [List.length_set]
                      omega
                    · rw [hgetk]
                      simp only [hs1.1]
                      exact hg1
                    · rw [hgetk]
                      simp only [hs1.1]
                      exact hgM
                    · rw [hgetk]
                      simp only [hs1.1]
                      exact hgne
                  have hbd2 : cycDist M k.gen
                      (s2.indices.getD k.idx ⟨0, 0⟩).gen + dRemCount ops
                      ≤ M - 2 := by
                    have hgen2 : (s2.indices.getD k.idx ⟨0, 0⟩).gen
                        = (s.indices.getD k.idx ⟨0, 0⟩).gen := by
                      rw [hteq]
                      by_cases hj : s1.freeHead = k.idx
                      · rw [← hj, getD_set_self _ _ _ _ hfh, hj]
                        simp only [hs1.1]
                      · rw [getD_set_ne _ _ _ hj]
                        simp only [hs1.1]
                    rw [hgen2]
                    simp only [dRemCount] at hbd
                    omega
                  exact ih s2 t hmid hbd2 h
          | rem k2 =>
              simp only [DSM.applyOp] at hop
              cases hrem : DSM.remove M k2 s with
              | none => rw [hrem] at hop; simp at hop
              | some p =>
                  obtain ⟨b, s2x⟩ := p
                  rw [hrem] at hop
                  obtain rfl : s2 = s2x := by simpa using hop.symm
                  cases b with
                  | false =>
                      have he : s2 = s := (DSM.remove_false_elim hrem).1
                      rw [he] at h
                      refine ih s t ⟨hidx, hg1, hgM, hgne⟩ ?_ h
                      simp only [dRemCount] at hbd
                      omega
                  | true =>
                      obtain ⟨hidx2, hgen2, hd0, hdi, hbr1, hbr2, hback,
                        hteq⟩ := DSM.remove_true_elim hrem
                      have hbd0 : cycDist M k.gen
                          (s.indices.getD k.idx ⟨0, 0⟩).gen + 1
                          + dRemCount ops ≤ M - 2 := by
                        simp only [dRemCount] at hbd
                        omega
                      have hM3 : 3 ≤ M := by omega
                      by_cases hj : k2.idx = k.idx
                      · -- the remove hits slot k.idx: its generation advances
                        have hk2 : k2.gen = (s.indices.getD k.idx ⟨0, 0⟩).gen := by
                          rw [← hj, hgen2]
                        have hgen3 : (s2.indices.getD k.idx ⟨0, 0⟩).gen
                            = nextGenVal M (s.indices.getD k.idx ⟨0, 0⟩).gen := by
                          rw [hteq, ← hj, getD_set_self _ _ _ _ (by
                            simp only [List.length_set]
                            omega), hj]
                          simp only [GKey.nextGeneration]
                          rw [hk2]
                        have hstep : cycDist M k.gen
                            (nextGenVal M (s.indices.getD k.idx ⟨0, 0⟩).gen)
                            = cycDist M k.gen
                              (s.indices.getD k.idx ⟨0, 0⟩).gen + 1 :=
                          cycDist_nextGenVal hM3 hk hkM hg1 hgM (by omega)
                        have hmid : DSM.staleInv M k s2 := by
                          refine ⟨?_, ?_, ?_, ?_⟩
                          · rw [hteq]
                            simp only [List.length_set]
                            omega
                          · rw [hgen3]
                            exact nextGenVal_pos M _
                          · rw [hgen3]
                            exact nextGenVal_lt_any _ hM
                          · rw [hgen3]
                            intro e
                            have : cycDist M k.gen (nextGenVal M
                                (s.indices.getD k.idx ⟨0, 0⟩).gen) = 0 := by
                              rw [e, cycDist_self]
                            omega
                        refine ih s2 t hmid ?_ h
                        rw [hgen3, hstep]
                        omega
                      · -- the remove hits another slot: gen at k.idx is kept
                        have hgen3 : (s2.indices.getD k.idx ⟨0, 0⟩).gen
                            = (s.indices.getD k.idx ⟨0, 0⟩).gen := by
                          rw [hteq]
                          rw [getD_set_ne _ _ _ hj]
                          by_cases hb : (swapList s.backrefs
                              (s.indices.getD k2.idx ⟨0, 0⟩).idx
                              (s.data.length - 1)).getD
                              (s.indices.getD k2.idx ⟨0, 0⟩).idx 0 = k.idx
                          · rw [← hb, getD_set_self _ _ _ _ (by omega), hb]
                          · rw [getD_set_ne _ _ _ hb]
                        have hmid : DSM.staleInv M k s2 := by
                          refine ⟨?_, ?_, ?_, ?_⟩
                          · rw [hteq]
                            simp only [List.length_set]
                            omega
                          · rw [hgen3]; exact hg1
                          · rw [hgen3]; exact hgM
                          · rw [hgen3]; exact hgne
                        refine ih s2 t hmid ?_ h
                        rw [hgen3]
                        omega

/-- C1, counterexample to the claim as stated: stale-handle detection
fails once the generation counter wraps.  With generation modulus 4
(2-bit generations) on a capacity-1 SlotMap, key (0, 1) is removed
successfully, yet after three further insert/remove rounds on the same
slot the generation counter cycles 2, 3, 1 and the last insert hands out
generation 1 again: contains((0,1)) then returns true and find((0,1))
returns the unrelated later value 13. -/
theorem c1_counterexample :
    ((SM.init .nullSF Nat 1 1 1 1).bind fun s0 =>
      (SM.applyOps .nullSF 4 [SMOp.ins 10] s0).bind fun s1 =>
      (SM.remove .nullSF ⟨0, 1⟩ s1).bind fun r =>
      if r.1 then
        (SM.applyOps .nullSF 4
          [SMOp.ins 11, SMOp.rem ⟨0, 2⟩, SMOp.ins 12,
           SMOp.rem ⟨0, 3⟩, SMOp.ins 13] r.2).bind fun t =>
        (SM.contains ⟨0, 1⟩ t).bind fun c =>
        (SM.find ⟨0, 1⟩ t).map fun f => (c, f)
      else none)
    = some (true, some 13) := by
  decide

/-- C1 (amended): stale-handle detection holds as long as the global
generation machinery cannot cycle back onto the removed key's
generation.  Sparse SlotMap: if remove(k) returned true and the cyclic
distance from k.gen to the generation counter plus the number of
subsequent inserts stays at most M - 2 (M the generation modulus), every
later state has contains(k) = false and find(k) = null.  DenseSlotMap:
if remove(k) returned true and 1 plus the number of subsequent removes
stays at most M - 2, likewise — there each successful remove of slot
k.idx advances that slot's stored generation by one step, so only
removes can bring it back around. -/
theorem c1_stale_handle_detection_amended :
    (∀ (T : Type) (impl : SkipImpl) (M : Nat) (k : GKey)
        (s s2 t : SM T) (ops : List (SMOp T)),
      2 ≤ M →
      k.gen < M →
      s.gens.length = s.cells.length →
      1 ≤ s.genCtr → s.genCtr < M → s.genCtr ≠ k.gen →
      SM.remove impl k s = some (true, s2) →
      cycDist M k.gen s.genCtr + smInsCount ops ≤ M - 2 →
      SM.applyOps impl M ops s2 = some t →
      SM.contains k t = some false ∧ SM.find k t = some none) ∧
    (∀ (T : Type) (M : Nat) (k : GKey) (s s2 t : DSM T)
        (ops : List (DOp T)),
      2 ≤ M →
      1 ≤ k.gen → k.gen < M →
      DSM.remove M k s = some (true, s2) →
      1 + dRemCount ops ≤ M - 2 →
      DSM.applyOps M ops s2 = some t →
      DSM.contains k t = some false ∧ DSM.find k t = some none) := by
  constructor
  · intro T impl M k s s2 t ops hM hkM hsync hc1 hcM hcnk hrem hbd happ
    obtain ⟨hidx, hkne0, hstored, sk, hsk, hteq⟩ := SM.remove_true_unfold hrem
    have hk : 1 ≤ k.gen := Nat.one_le_iff_ne_zero.mpr hkne0
    have hinv2 : SM.staleInv M k s2 := by
      rw [hteq]
      refine ⟨?_, ?_, ?_, hc1, hcM, hcnk⟩
      · simp only [List.length_set]
        exact hsync
      · simp only [List.length_set]
        omega
      · rw [getD_set_self _ _ _ _ (by omega)]
        omega
    have hbd2 : cycDist M k.gen s2.genCtr + smInsCount ops ≤ M - 2 := by
      have he : s2.genCtr = s.genCtr := by rw [hteq]
      rw [he]
      exact hbd
    obtain ⟨hts, hti, htne, _, _, _⟩ :=
      sm_stale_preserved impl M k hM hk hkM ops s2 t hinv2 hbd2 happ
    have hcont : SM.contains k t = some false := by
      unfold SM.contains
      rw [if_neg (by omega)]
      have hb : (t.gens.getD k.idx 0 == k.gen) = false :=
        beq_eq_false_iff_ne.mpr htne
      rw [hb, Bool.and_false]
    refine ⟨hcont, ?_⟩
    unfold SM.find
    rw [hcont]
    rfl
  · intro T M k s s2 t ops hM hk hkM hrem hbd happ
    obtain ⟨hidx, hgen, hd0, hdi, hbr1, hbr2, hback, hteq⟩ :=
      DSM.remove_true_elim hrem
    have hM3 : 3 ≤ M := by omega
    have hgen2 : (s2.indices.getD k.idx ⟨0, 0⟩).gen = nextGenVal M k.gen := by
      rw [hteq]
      rw [getD_set_self _ _ _ _ (by
        simp only [List.length_set]
        omega)]
      rfl
    have hstep : cycDist M k.gen (nextGenVal M k.gen) = 1 := by
      rw [cycDist_nextGenVal hM3 hk hkM hk hkM (by
        rw [cycDist_self]
        omega), cycDist_self]
    have hinv2 : DSM.staleInv M k s2 := by
      refine ⟨?_, ?_, ?_, ?_⟩
      · rw [hteq]
        simp only [List.length_set]
        omega
      · rw [hgen2]
        exact nextGenVal_pos M k.gen
      · rw [hgen2]
        exact nextGenVal_lt_any k.gen hM
      · rw [hgen2]
        intro e
        rw [e, cycDist_self] at hstep
        omega
    have hbd2 : cycDist M k.gen (s2.indices.getD k.idx ⟨0, 0⟩).gen
        + dRemCount ops ≤ M - 2 := by
      rw [hgen2, hstep]
      exact hbd
    obtain ⟨hti, _, _, htne⟩ :=
      dsm_stale_preserved M k hM hk hkM ops s2 t hinv2 hbd2 happ
    have hcont : DSM.contains k t = some false := by
      unfold DSM.contains
      rw [if_neg (by omega)]
      have hb : ((t.indices.getD k.idx ⟨0, 0⟩).gen == k.gen) = false :=
        beq_eq_false_iff_ne.mpr htne
      rw [hb]
    refine ⟨hcont, ?_⟩
    unfold DSM.find
    rw [hcont]
    rfl

theorem c1_stale_handle_detection_amended_witness :
    SM.contains (⟨0, 1⟩ : GKey)
      { cells := [Cell.val 11], gens := [2], skip := [], sz := 1,
        freeHead := 1, gc := 1, gfNum := 1, gfDen := 1, genCtr := 3 }
      = some false ∧
    SM.find (⟨0, 1⟩ : GKey)
      { cells := [Cell.val 11], gens := [2], skip := [], sz := 1,
        freeHead := 1, gc := 1, gfNum := 1, gfDen := 1, genCtr := 3 }
      = some none ∧
    DSM.contains (⟨0, 1⟩ : GKey)
      { data := ([] : List Nat), indices := [⟨1, 2⟩], backrefs := [],
        freeHead := 0, gc := 1, gfNum := 1, gfDen := 1 }
      = some false ∧
    DSM.find (⟨0, 1⟩ : GKey)
      { data := ([] : List Nat), indices := [⟨1, 2⟩], backrefs := [],
        freeHead := 0, gc := 1, gfNum := 1, gfDen := 1 }
      = some none := by
  have h1 := c1_stale_handle_detection_amended.1 Nat .nullSF 4 ⟨0, 1⟩
    { cells := [Cell.val 10], gens := [1], skip := [], sz := 1,
      freeHead := 1, gc := 1, gfNum := 1, gfDen := 1, genCtr := 2 }
    { cells := [Cell.link 1], gens := [0], skip := [], sz := 0,
      freeHead := 0, gc := 1, gfNum := 1, gfDen := 1, genCtr := 2 }
    { cells := [Cell.val 11], gens := [2], skip := [], sz := 1,
      freeHead := 1, gc := 1, gfNum := 1, gfDen := 1, genCtr := 3 }
    [SMOp.ins 11]
    (by decide) (by decide) (by decide) (by decide) (by decide)
    (by decide) (by decide) (by decide) (by decide)
  have h2 := c1_stale_handle_detection_amended.2 Nat 4 ⟨0, 1⟩
    { data := [10], indices := [⟨0, 1⟩], backrefs := [0],
      freeHead := 1, gc := 1, gfNum := 1, gfDen := 1 }
    { data := [], indices := [⟨1, 2⟩], backrefs := [],
      freeHead := 0, gc := 1, gfNum := 1, gfDen := 1 }
    { data := [], indices := [⟨1, 2⟩], backrefs := [],
      freeHead := 0, gc := 1, gfNum := 1, gfDen := 1 }
    []
    (by decide) (by decide) (by decide) (by decide) (by decide)
    (by decide)
  exact ⟨h1.1, h1.2, h2.1, h2.2⟩

theorem get?_append_lt {T : Type} (l1 l2 : List T) (i : Nat)
    (h : i < l1.length) : (l1 ++ l2).get? i = l1.get? i := by
  simp [List.get?_eq_getElem?, List.getElem?_append_left, h]

theorem get?_concat_len {T : Type} (l : List T) (a : T) :
    (l ++ [a]).get? l.length = some a := by
  simp [List.get?_eq_getElem?]

theorem get?_dropLast_lt {T : Type} (l : List T) (i : Nat)
    (h : i < l.length - 1) : (l.dropLast).get? i = l.get? i := by
  have h2 : i < l.length := by omega
  simp [List.get?_eq_getElem?, List.getElem?_dropLast, h,
    List.getElem?_eq_getElem, h2]

set_option maxRecDepth 4000 in
theorem get?_swapList {T : Type} (l : List T) (i j p : Nat)
    (hi : i < l.length) (hj : j < l.length) :
    (swapList l i j).get? p =
      if p = i then l.get? j
      else if p = j then l.get? i
      else l.get? p := by
  unfold swapList
  simp only [List.get?_eq_getElem?]
  rw [List.getElem?_eq_getElem hi, List.getElem?_eq_getElem hj]
  simp only [List.getElem?_set, List.length_set]
  split_ifs <;> (subst_eqs; simp_all [List.getElem?_eq_getElem])

theorem occupied_true_iff {T : Type} (s : DSM T) (j : Nat) :
    DSM.occupied s j = true ↔
      ((s.indices.getD j ⟨0, 0⟩).idx < s.data.length ∧
        s.backrefs.getD (s.indices.getD j ⟨0, 0⟩).idx 0 = j) := by
  simp [DSM.occupied]

theorem occupied_false_iff {T : Type} (s : DSM T) (j : Nat) :
    DSM.occupied s j = false ↔
      (¬ (s.indices.getD j ⟨0, 0⟩).idx < s.data.length ∨
        s.backrefs.getD (s.indices.getD j ⟨0, 0⟩).idx 0 ≠ j) := by
  simp [DSM.occupied, Decidable.imp_iff_not_or]

theorem occupied_false_of_ge {T : Type} (s : DSM T) (j : Nat)
    (hb : ∀ p, p < s.data.length → s.backrefs.getD p 0 < j) :
    DSM.occupied s j = false := by
  rw [occupied_false_iff]
  by_cases h : (s.indices.getD j ⟨0, 0⟩).idx < s.data.length
  · exact Or.inr (Nat.ne_of_lt (hb _ h))
  · exact Or.inl h

theorem dchain_head {idxs : List GKey} {h a : Nat} {rest : List Nat}
    (hc : dchain idxs h (a :: rest)) : h = a := hc.1

theorem dchain_congr {idxs idxs2 : List GKey} :
    ∀ {ch : List Nat} {h : Nat}, dchain idxs h ch →
      (∀ j, j ∈ ch → idxs2.getD j ⟨0, 0⟩ = idxs.getD j ⟨0, 0⟩) →
      dchain idxs2 h ch := by
  intro ch
  induction ch with
  | nil => intro h _ _; trivial
  | cons a rest ih =>
      intro h hc hag
      refine ⟨hc.1, ?_⟩
      rw [hag a (by simp)]
      exact ih hc.2 (fun j hj => hag j (by simp [hj]))

theorem dchain_range' (idxs : List GKey) :
    ∀ (m a : Nat),
      (∀ j, a ≤ j → j + 1 < a + m → (idxs.getD j ⟨0, 0⟩).idx = j + 1) →
      dchain idxs a (List.range' a m) := by
  intro m
  induction m with
  | zero => intro a _; trivial
  | succ m ih =>
      intro a hl
      refine ⟨rfl, ?_⟩
      cases m with
      | zero => trivial
      | succ m2 =>
          rw [hl a (le_refl a) (by omega)]
          exact ih (a + 1) (fun j hj1 hj2 => hl j (by omega) (by omega))

theorem DSM.dwf_init (T : Type) (cap gc gn gd : Nat) :
    DSM.DWF (DSM.init T cap gc gn gd) := by
  refine ⟨rfl, by simp [DSM.init], ?_, List.range' 0 cap, ?_, ?_, ?_, ?_⟩
  · intro p hp
    simp [DSM.init] at hp
  · refine dchain_range' _ cap 0 ?_
    intro j hj1 hj2
    simp only [DSM.init]
    rw [getD_range_map _ _ _ _ (by omega)]
  · simp [DSM.init]
  · exact List.nodup_range' _ _
  · intro j hj
    have hjc : j < cap := by
      have := List.mem_range'_1.mp hj
      omega
    constructor
    · simp [DSM.init, hjc]
    · rw [occupied_false_iff]
      left
      simp [DSM.init]

theorem DSM.dwf_reserve {T : Type} {s t : DSM T} {n : Nat}
    (hw : DSM.DWF s) (hfull : s.data.length = s.indices.length)
    (hn : s.indices.length < n) (h : DSM.reserve s n = some t) :
    DSM.DWF t ∧
    (∀ j, j < s.indices.length →
      t.indices.getD j ⟨0, 0⟩ = s.indices.getD j ⟨0, 0⟩) ∧
    t.data = s.data ∧ t.backrefs = s.backrefs ∧
    t.indices.length = n ∧ t.freeHead = s.indices.length := by
  obtain ⟨hn0, hteq⟩ := DSM.reserve_elim h
  obtain ⟨hlen, hle, hback, ch, hch, hchlen, hnd, hmem⟩ := hw
  have hind : t.indices = (s.indices.take n
      ++ (List.range (n - s.indices.length)).map
          (fun j => GKey.mk (s.indices.length + j + 1) 1)).set
      (n - 1) ⟨s.freeHead, 1⟩ := by rw [hteq]
  have hdata : t.data = s.data := by rw [hteq]
  have hbrs : t.backrefs = s.backrefs := by rw [hteq]
  have hfh : t.freeHead = s.indices.length := by rw [hteq]
  have htakelen : (s.indices.take n).length = s.indices.length := by
    simp only [List.length_take]
    omega
  have hilen : t.indices.length = n := by
    rw [hind]
    simp only [List.length_set, List.length_append, List.length_take,
      List.length_map, List.length_range]
    omega
  have hpres : ∀ j, j < s.indices.length →
      t.indices.getD j ⟨0, 0⟩ = s.indices.getD j ⟨0, 0⟩ := by
    intro j hj
    rw [hind, getD_set_ne _ _ _ (by omega),
      getD_append_lt _ _ _ _ (by omega),
      getD_take_lt _ _ _ _ (by omega)]
  refine ⟨⟨?_, ?_, ?_, List.range' s.indices.length (n - s.indices.length),
    ?_, ?_, ?_, ?_⟩, hpres, hdata, hbrs, hilen, hfh⟩
  · rw [hdata, hbrs]
    exact hlen
  · rw [hdata, hilen]
    omega
  · intro p hp
    rw [hdata] at hp
    rw [hbrs]
    obtain ⟨h1, h2⟩ := hback p hp
    refine ⟨by omega, ?_⟩
    rw [hpres _ (by omega)]
    exact h2
  · rw [hfh]
    refine dchain_range' _ (n - s.indices.length) s.indices.length ?_
    intro j hj1 hj2
    rw [hind, getD_set_ne _ _ _ (by omega),
      getD_append_ge _ _ _ _ (by omega), htakelen]
    rw [getD_range_map _ _ _ _ (by omega)]
    show s.indices.length + (j - s.indices.length) + 1 = j + 1
    omega
  · rw [hilen, hdata]
    simp only [List.length_range']
    omega
  · exact List.nodup_range' _ _
  · intro j hj
    have hjr := List.mem_range'_1.mp hj
    refine ⟨by omega, ?_⟩
    apply occupied_false_of_ge
    intro p hp
    rw [hdata] at hp
    rw [hbrs]
    have := (hback p hp).1
    omega

theorem DSM.dwf_insert {T : Type} {v : T} {s t : DSM T} {k : GKey}
    (hw : DSM.DWF s) (h : DSM.insert v s = some (k, t)) :
    DSM.DWF t ∧ DSM.track k v t ∧
    (∀ k2 v2, DSM.track k2 v2 s → DSM.track k2 v2 t) := by
  obtain ⟨s1, hpath, hfh1, hkey, hteq⟩ := DSM.insert_elim h
  have hbundle : DSM.DWF s1 ∧
      (∀ k2 v2, DSM.track k2 v2 s → DSM.track k2 v2 s1) ∧
      s1.data.length < s1.indices.length := by
    rcases hpath with ⟨hne, he⟩ | ⟨hfull, hgrow, hres⟩
    · subst he
      refine ⟨hw, fun _ _ hh => hh, ?_⟩
      have := hw.2.1
      omega
    · obtain ⟨hwf1, hpres, hdata1, hbrs1, hilen1, hfh1x⟩ :=
        DSM.dwf_reserve hw hfull.symm hgrow hres
      refine ⟨hwf1, ?_, ?_⟩
      · intro k2 v2 tr
        obtain ⟨t1, t2, t3, t4, t5⟩ := tr
        refine ⟨by omega, ?_, ?_, ?_, ?_⟩
        · rw [hpres _ t1]
          exact t2
        · rw [hpres _ t1, hdata1]
          exact t3
        · rw [hpres _ t1, hbrs1]
          exact t4
        · rw [hpres _ t1, hdata1]
          exact t5
      · rw [hdata1, hilen1]
        omega
  obtain ⟨hwf1, htr1, hlt1⟩ := hbundle
  obtain ⟨hlen1, hle1, hback1, ch1, hch1, hchlen1, hnd1, hmem1⟩ := hwf1
  cases ch1 with
  | nil =>
      exfalso
      rw [List.length_nil] at hchlen1
      omega
  | cons a rest =>
  have hhead : s1.freeHead = a := dchain_head hch1
  have hind : t.indices = s1.indices.set s1.freeHead
      ⟨s1.data.length, (s1.indices.getD s1.freeHead ⟨0, 0⟩).gen⟩ := by
    rw [hteq]
  have hdata : t.data = s1.data ++ [v] := by rw [hteq]
  have hbrs : t.backrefs = s1.backrefs ++ [s1.freeHead] := by rw [hteq]
  have hfh2 : t.freeHead = (s1.indices.getD s1.freeHead ⟨0, 0⟩).idx := by
    rw [hteq]
  have hdlen : t.data.length = s1.data.length + 1 := by
    rw [hdata]
    simp
  have hblen : t.backrefs.length = s1.backrefs.length + 1 := by
    rw [hbrs]
    simp
  have hilen : t.indices.length = s1.indices.length := by
    rw [hind]
    simp
  have hanotocc : DSM.occupied s1 a = false := (hmem1 a (by simp)).2
  have haunb : ∀ p, p < s1.data.length → s1.backrefs.getD p 0 ≠ a := by
    intro p hp hcon
    have h2 := (hback1 p hp).2
    rw [hcon] at h2
    have : DSM.occupied s1 a = true := (occupied_true_iff _ _).mpr
      ⟨by rw [h2]; exact hp, by rw [h2]; exact hcon⟩
    rw [hanotocc] at this
    exact Bool.false_ne_true this
  have hbget : ∀ p, p < s1.data.length →
      t.backrefs.getD p 0 = s1.backrefs.getD p 0 := by
    intro p hp
    rw [hbrs, getD_append_lt _ _ _ _ (by omega)]
  have hbgetn : t.backrefs.getD s1.data.length 0 = s1.freeHead := by
    rw [hbrs, getD_append_ge _ _ _ _ (by omega), hlen1]
    simp
  have higet : ∀ j, j ≠ s1.freeHead →
      t.indices.getD j ⟨0, 0⟩ = s1.indices.getD j ⟨0, 0⟩ := by
    intro j hj
    rw [hind, getD_set_ne _ _ _ (fun e => hj e.symm)]
  have higets : t.indices.getD s1.freeHead ⟨0, 0⟩
      = ⟨s1.data.length, (s1.indices.getD s1.freeHead ⟨0, 0⟩).gen⟩ := by
    rw [hind, getD_set_self _ _ _ _ hfh1]
  refine ⟨⟨?_, ?_, ?_, rest, ?_, ?_, ?_, ?_⟩, ?_, ?_⟩
  · omega
  · omega
  · intro p hp
    rw [hdlen] at hp
    by_cases hpn : p < s1.data.length
    · have hq := hback1 p hpn
      rw [hbget p hpn]
      have hqa : s1.backrefs.getD p 0 ≠ a := haunb p hpn
      rw [higet _ (by rw [hhead]; exact hqa)]
      exact ⟨by omega, hq.2⟩
    · have hpe : p = s1.data.length := by omega
      subst hpe
      rw [hbgetn, higets]
      exact ⟨by omega, rfl⟩
  · rw [hfh2]
    have hrest : dchain s1.indices
        (s1.indices.getD a ⟨0, 0⟩).idx rest := hch1.2
    rw [hhead]
    refine dchain_congr hrest ?_
    intro j hj
    have hja : j ≠ a := by
      intro e
      subst e
      exact (List.nodup_cons.mp hnd1).1 hj
    rw [higet _ (by rw [hhead]; exact hja)]
  · have := List.length_cons a rest
    rw [hilen, hdlen]
    omega
  · exact (List.nodup_cons.mp hnd1).2
  · intro j hj
    have hja : j ≠ a := by
      intro e
      subst e
      exact (List.nodup_cons.mp hnd1).1 hj
    have hjlen := (hmem1 j (by simp [hj])).1
    have hjocc := (hmem1 j (by simp [hj])).2
    refine ⟨by omega, ?_⟩
    rw [occupied_false_iff] at hjocc ⊢
    rw [higet _ (by rw [hhead]; exact hja)]
    by_cases hx : (s1.indices.getD j ⟨0, 0⟩).idx < s1.data.length
    · rcases hjocc with hl | hr
      · exact absurd hx hl
      · rw [hbget _ hx]
        exact Or.inr hr
    · by_cases hx2 : (s1.indices.getD j ⟨0, 0⟩).idx = s1.data.length
      · rw [hx2, hbgetn]
        refine Or.inr ?_
        rw [hhead]
        exact fun e => hja e.symm
      · rw [hdlen]
        exact Or.inl (by omega)
  · have hki : k.idx = s1.freeHead := by rw [hkey]
    have hkg : k.gen = (s1.indices.getD s1.freeHead ⟨0, 0⟩).gen := by
      rw [hkey]
    refine ⟨?_, ?_, ?_, ?_, ?_⟩
    · rw [hki, hilen]
      exact hfh1
    · rw [hki, higets, hkg]
    · rw [hki, higets, hdlen]
      show s1.data.length < s1.data.length + 1
      omega
    · rw [hki, higets]
      show t.backrefs.getD s1.data.length 0 = s1.freeHead
      exact hbgetn
    · rw [hki, higets, hdata]
      show (s1.data ++ [v]).get? s1.data.length = some v
      exact get?_concat_len _ _
  · intro k2 v2 tr
    obtain ⟨t1, t2, t3, t4, t5⟩ := htr1 k2 v2 tr
    have hocc2 : DSM.occupied s1 k2.idx = true :=
      (occupied_true_iff _ _).mpr ⟨t3, t4⟩
    have hne2 : k2.idx ≠ s1.freeHead := by
      intro e
      rw [e, hhead, hanotocc] at hocc2
      exact Bool.false_ne_true hocc2
    refine ⟨by omega, ?_, ?_, ?_, ?_⟩
    · rw [higet _ hne2]
      exact t2
    · rw [higet _ hne2, hdlen]
      omega
    · rw [higet _ hne2, hbget _ t3]
      exact t4
    · rw [higet _ hne2, hdata, get?_append_lt _ _ _ t3]
      exact t5

theorem DSM.dwf_remove {T : Type} {M : Nat} {k2 : GKey} {s t : DSM T}
    {b : Bool} (hw : DSM.DWF s) (hok : DSM.okOp (DOp.rem k2) s = true)
    (h : DSM.remove M k2 s = some (b, t)) :
    DSM.DWF t ∧ (∀ k v, DSM.track k v s → k ≠ k2 → DSM.track k v t) := by
  cases b with
  | false =>
      have he := (DSM.remove_false_elim h).1
      subst he
      exact ⟨hw, fun k v tr _ => tr⟩
  | true =>
      obtain ⟨hidx, hgen, hd0, hdi, hbr1, hbr2, hback0, hteq⟩ :=
        DSM.remove_true_elim h
      obtain ⟨hlen, hle, hback, ch, hch, hchlen, hnd, hmem⟩ := hw
      have hdataeq : t.data = (swapList s.data
          (s.indices.getD k2.idx ⟨0, 0⟩).idx (s.data.length - 1)).dropLast := by
        rw [hteq]
      have hbrseq : t.backrefs = (swapList s.backrefs
          (s.indices.getD k2.idx ⟨0, 0⟩).idx (s.data.length - 1)).dropLast := by
        rw [hteq]
      have hindeq : t.indices = (s.indices.set
          ((swapList s.backrefs (s.indices.getD k2.idx ⟨0, 0⟩).idx
            (s.data.length - 1)).getD (s.indices.getD k2.idx ⟨0, 0⟩).idx 0)
          ⟨(s.indices.getD k2.idx ⟨0, 0⟩).idx,
            (s.indices.getD
              ((swapList s.backrefs (s.indices.getD k2.idx ⟨0, 0⟩).idx
                (s.data.length - 1)).getD
                (s.indices.getD k2.idx ⟨0, 0⟩).idx 0)
              ⟨0, 0⟩).gen⟩).set
        k2.idx (GKey.nextGeneration M ⟨s.freeHead, k2.gen⟩) := by
        rw [hteq]
      have hfheq : t.freeHead = k2.idx := by rw [hteq]
      set di := (s.indices.getD k2.idx ⟨0, 0⟩).idx with hdi_def
      set br0 := (swapList s.backrefs di (s.data.length - 1)).getD di 0
        with hbr0_def
      have hocc : DSM.occupied s k2.idx = true := by
        simp only [DSM.okOp] at hok
        rw [if_pos hidx, hgen] at hok
        simpa using hok
      obtain ⟨hdilt, hbrdi⟩ := (occupied_true_iff _ _).mp hocc
      have hbr0 : br0 = s.backrefs.getD (s.data.length - 1) 0 := by
        rw [hbr0_def, getD_swapList _ _ _ _ _ hbr2 hbr1]
        simp
      have hbr0lt : br0 < s.indices.length := by
        rw [hbr0]
        exact (hback _ (by omega)).1
      have hbr0own : (s.indices.getD br0 ⟨0, 0⟩).idx = s.data.length - 1 := by
        rw [hbr0]
        exact (hback _ (by omega)).2
      have hinj : ∀ p q, p < s.data.length → q < s.data.length →
          s.backrefs.getD p 0 = s.backrefs.getD q 0 → p = q := by
        intro p q hp hq he
        have h1 := (hback p hp).2
        have h2 := (hback q hq).2
        rw [he] at h1
        omega
      have hocc_br0 : DSM.occupied s br0 = true := by
        refine (occupied_true_iff _ _).mpr ⟨by rw [hbr0own]; omega, ?_⟩
        rw [hbr0own, hbr0]
      have hk2notmem : k2.idx ∉ ch := by
        intro hm
        have hx := (hmem _ hm).2
        rw [hocc] at hx
        simp at hx
      have hbr0notmem : br0 ∉ ch := by
        intro hm
        have hx := (hmem _ hm).2
        rw [hocc_br0] at hx
        simp at hx
      have hdlen : t.data.length = s.data.length - 1 := by
        rw [hdataeq]
        simp [length_swapList]
      have hblen : t.backrefs.length = s.data.length - 1 := by
        rw [hbrseq]
        simp [length_swapList, hlen]
      have hilen : t.indices.length = s.indices.length := by
        rw [hindeq]
        simp
      have higetk2 : t.indices.getD k2.idx ⟨0, 0⟩
          = GKey.nextGeneration M ⟨s.freeHead, k2.gen⟩ := by
        rw [hindeq]
        rw [getD_set_self _ _ _ _ (by simp only [List.length_set]; omega)]
      have hk2red : (t.indices.getD k2.idx ⟨0, 0⟩).idx = s.freeHead := by
        rw [higetk2]
        rfl
      have higetbr0 : br0 ≠ k2.idx →
          t.indices.getD br0 ⟨0, 0⟩
            = ⟨di, (s.indices.getD br0 ⟨0, 0⟩).gen⟩ := by
        intro hne
        rw [hindeq, getD_set_ne _ _ _ (fun e => hne e.symm),
          getD_set_self _ _ _ _ hbr0lt]
      have higet : ∀ j, j ≠ k2.idx → j ≠ br0 →
          t.indices.getD j ⟨0, 0⟩ = s.indices.getD j ⟨0, 0⟩ := by
        intro j h1 h2
        rw [hindeq, getD_set_ne _ _ _ (fun e => h1 e.symm),
          getD_set_ne _ _ _ (fun e => h2 e.symm)]
      have hbget : ∀ p, p < s.data.length - 1 →
          t.backrefs.getD p 0 = if p = di
            then s.backrefs.getD (s.data.length - 1) 0
            else s.backrefs.getD p 0 := by
        intro p hp
        rw [hbrseq, getD_dropLast_lt _ _ _ (by rw [length_swapList]; omega),
          getD_swapList _ _ _ _ _ hbr2 hbr1]
        by_cases hpd : p = di
        · simp [hpd]
        · have hpn : ¬ p = s.data.length - 1 := by omega
          simp [hpd, hpn]
      have hdget : ∀ p, p < s.data.length - 1 →
          t.data.get? p = if p = di
            then s.data.get? (s.data.length - 1)
            else s.data.get? p := by
        intro p hp
        rw [hdataeq, get?_dropLast_lt _ _ (by rw [length_swapList]; omega),
          get?_swapList _ _ _ _ hdi (by omega)]
        by_cases hpd : p = di
        · simp [hpd]
        · have hpn : ¬ p = s.data.length - 1 := by omega
          simp [hpd, hpn]
      have hbr0nek2_of : di ≠ s.data.length - 1 → br0 ≠ k2.idx := by
        intro hdn e
        rw [e] at hbr0own
        exact hdn hbr0own
      refine ⟨⟨?_, ?_, ?_, k2.idx :: ch, ?_, ?_, ?_, ?_⟩, ?_⟩
      · omega
      · omega
      · intro p hp
        rw [hdlen] at hp
        by_cases hpd : p = di
        · subst hpd
          have hne2 : br0 ≠ k2.idx := hbr0nek2_of (by omega)
          rw [hbget di (by omega), if_pos rfl, ← hbr0]
          rw [higetbr0 hne2]
          exact ⟨by omega, rfl⟩
        · rw [hbget p (by omega), if_neg hpd]
          have hq := hback p (by omega)
          have hqk2 : s.backrefs.getD p 0 ≠ k2.idx := by
            intro e
            exact hpd (hinj p di (by omega) (by omega) (e.trans hbrdi.symm))
          have hqbr0 : s.backrefs.getD p 0 ≠ br0 := by
            intro e
            rw [hbr0] at e
            have := hinj p (s.data.length - 1) (by omega) (by omega) e
            omega
          rw [higet _ hqk2 hqbr0]
          exact ⟨by omega, hq.2⟩
      · refine ⟨hfheq, ?_⟩
        rw [hk2red]
        refine dchain_congr hch ?_
        intro j hj
        refine higet j ?_ ?_
        · intro e
          exact hk2notmem (e ▸ hj)
        · intro e
          exact hbr0notmem (e ▸ hj)
      · simp only [List.length_cons]
        omega
      · exact List.nodup_cons.mpr ⟨hk2notmem, hnd⟩
      · intro j hj
        rcases List.mem_cons.mp hj with he | hm
        · subst he
          refine ⟨by omega, ?_⟩
          rw [occupied_false_iff, hk2red]
          by_cases hq : s.freeHead < t.data.length
          · right
            rw [hdlen] at hq
            rw [hbget _ hq]
            by_cases hfd : s.freeHead = di
            · rw [if_pos hfd, ← hbr0]
              intro e
              have := hbr0nek2_of (by omega)
              exact this e
            · rw [if_neg hfd]
              intro e
              exact hfd (hinj _ di (by omega) (by omega) (e.trans hbrdi.symm))
          · exact Or.inl hq
        · have hj1 := (hmem _ hm).1
          have hj2 := (hmem _ hm).2
          have hjk2 : j ≠ k2.idx := fun e => hk2notmem (e ▸ hm)
          have hjbr0 : j ≠ br0 := fun e => hbr0notmem (e ▸ hm)
          refine ⟨by omega, ?_⟩
          rw [occupied_false_iff] at hj2 ⊢
          rw [higet _ hjk2 hjbr0]
          by_cases hx : (s.indices.getD j ⟨0, 0⟩).idx < t.data.length
          · right
            rw [hdlen] at hx
            rw [hbget _ hx]
            by_cases hxd : (s.indices.getD j ⟨0, 0⟩).idx = di
            · rw [if_pos hxd, ← hbr0]
              intro e
              exact hjbr0 e.symm
            · rw [if_neg hxd]
              rcases hj2 with hl | hr
              · exact absurd (by omega) hl
              · exact hr
          · exact Or.inl hx
      · intro k v tr hne
        obtain ⟨t1, t2, t3, t4, t5⟩ := tr
        have hkik2 : k.idx ≠ k2.idx := by
          intro e
          apply hne
          have hgg : k.gen = k2.gen := by rw [← t2, e, hgen]
          cases k with
          | mk ki kg =>
              cases k2 with
              | mk k2i k2g =>
                  simp only [GKey.mk.injEq]
                  exact ⟨e, hgg⟩
        by_cases hkbr : k.idx = br0
        · have hpk_last : (s.indices.getD k.idx ⟨0, 0⟩).idx
              = s.data.length - 1 := by
            rw [hkbr]
            exact hbr0own
          have hdine : di ≠ s.data.length - 1 := by
            intro e
            apply hkik2
            rw [hkbr, hbr0, ← e]
            exact hbrdi
          have hne2 : br0 ≠ k2.idx := fun e => hkik2 (hkbr.trans e)
          refine ⟨by omega, ?_, ?_, ?_, ?_⟩
          · rw [hkbr, higetbr0 hne2]
            show (s.indices.getD br0 ⟨0, 0⟩).gen = k.gen
            rw [← hkbr]
            exact t2
          · rw [hkbr, higetbr0 hne2]
            show di < t.data.length
            omega
          · rw [hkbr, higetbr0 hne2]
            show t.backrefs.getD di 0 = br0
            rw [hbget di (by omega), if_pos rfl, ← hbr0]
          · rw [hkbr, higetbr0 hne2]
            show t.data.get? di = some v
            rw [hdget di (by omega), if_pos rfl, ← hpk_last]
            exact t5
        · have hpk_ne_last : (s.indices.getD k.idx ⟨0, 0⟩).idx
              ≠ s.data.length - 1 := by
            intro e
            apply hkbr
            rw [hbr0, ← e]
            exact t4.symm
          have hpk_ne_di : (s.indices.getD k.idx ⟨0, 0⟩).idx ≠ di := by
            intro e
            apply hkik2
            rw [← t4, e]
            exact hbrdi
          refine ⟨by omega, ?_, ?_, ?_, ?_⟩
          · rw [higet _ hkik2 hkbr]
            exact t2
          · rw [higet _ hkik2 hkbr]
            omega
          · rw [higet _ hkik2 hkbr]
            rw [hbget _ (by omega), if_neg hpk_ne_di]
            exact t4
          · rw [higet _ hkik2 hkbr]
            rw [hdget _ (by omega), if_neg hpk_ne_di]
            exact t5

theorem DSM.dwf_applyOps {T : Type} (M : Nat) :
    ∀ (ops : List (DOp T)) (s t : DSM T),
      DSM.DWF s → DSM.okTrace M ops s = true →
      DSM.applyOps M ops s = some t → DSM.DWF t := by
  intro ops
  induction ops with
  | nil =>
      intro s t hw _ h
      simp only [DSM.applyOps, Option.some.injEq] at h
      exact h ▸ hw
  | cons op ops ih =>
      intro s t hw hok h
      simp only [DSM.applyOps] at h
      cases hop : DSM.applyOp M op s with
      | none => rw [hop] at h; simp at h
      | some s2 =>
          rw [hop] at h
          simp only [Option.some_bind] at h
          simp only [DSM.okTrace, Bool.and_eq_true] at hok
          obtain ⟨hok1, hok2⟩ := hok
          rw [hop] at hok2
          have hok2x : DSM.okTrace M ops s2 = true := hok2
          cases op with
          | ins v =>
              simp only [DSM.applyOp] at hop
              cases hins : DSM.insert v s with
              | none => rw [hins] at hop; simp at hop
              | some p =>
                  obtain ⟨kk, s2x⟩ := p
                  rw [hins] at hop
                  obtain rfl : s2 = s2x := by simpa using hop.symm
                  exact ih s2 t (DSM.dwf_insert hw hins).1 hok2x h
          | rem k2 =>
              simp only [DSM.applyOp] at hop
              cases hrem : DSM.remove M k2 s with
              | none => rw [hrem] at hop; simp at hop
              | some p =>
                  obtain ⟨b, s2x⟩ := p
                  rw [hrem] at hop
                  obtain rfl : s2 = s2x := by simpa using hop.symm
                  exact ih s2 t (DSM.dwf_remove hw hok1 hrem).1 hok2x h

theorem DSM.dwf_track_applyOps {T : Type} (M : Nat) (k : GKey) (v : T) :
    ∀ (ops : List (DOp T)) (s t : DSM T),
      DSM.DWF s → DSM.track k v s → DOp.rem k ∉ ops →
      DSM.okTrace M ops s = true → DSM.applyOps M ops s = some t →
      DSM.DWF t ∧ DSM.track k v t := by
  intro ops
  induction ops with
  | nil =>
      intro s t hw htr _ _ h
      simp only [DSM.applyOps, Option.some.injEq] at h
      exact h ▸ ⟨hw, htr⟩
  | cons op ops ih =>
      intro s t hw htr hni hok h
      simp only [DSM.applyOps] at h
      cases hop : DSM.applyOp M op s with
      | none => rw [hop] at h; simp at h
      | some s2 =>
          rw [hop] at h
          simp only [Option.some_bind] at h
          simp only [DSM.okTrace, Bool.and_eq_true] at hok
          obtain ⟨hok1, hok2⟩ := hok
          rw [hop] at hok2
          have hok2x : DSM.okTrace M ops s2 = true := hok2
          have hni2 : DOp.rem k ∉ ops := fun hm =>
            hni (List.mem_cons_of_mem _ hm)
          cases op with
          | ins v2 =>
              simp only [DSM.applyOp] at hop
              cases hins : DSM.insert v2 s with
              | none => rw [hins] at hop; simp at hop
              | some p =>
                  obtain ⟨kk, s2x⟩ := p
                  rw [hins] at hop
                  obtain rfl : s2 = s2x := by simpa using hop.symm
                  have step := DSM.dwf_insert hw hins
                  exact ih s2 t step.1 (step.2.2 k v htr) hni2 hok2x h
          | rem k2 =>
              simp only [DSM.applyOp] at hop
              cases hrem : DSM.remove M k2 s with
              | none => rw [hrem] at hop; simp at hop
              | some p =>
                  obtain ⟨b, s2x⟩ := p
                  rw [hrem] at hop
                  obtain rfl : s2 = s2x := by simpa using hop.symm
                  have hkk2 : k ≠ k2 := fun e =>
                    hni (by rw [e]; exact List.mem_cons_self _ _)
                  have step := DSM.dwf_remove hw hok1 hrem
                  exact ih s2 t step.1 (step.2 k v htr hkk2) hni2 hok2x h

/-- Sparse live-slot preservation: while no operation removes key k
itself, slot k.idx keeps generation k.gen and keeps holding the value v
(inserts only fill generation-0 slots, removes of other keys touch other
slot indices, resize relocates but preserves cell contents). -/
theorem sm_live_preserved {T : Type} (impl : SkipImpl) (M : Nat)
    (k : GKey) (v : T) :
    ∀ (ops : List (SMOp T)) (s t : SM T),
      SMOp.rem k ∉ ops →
      s.gens.length = s.cells.length →
      k.idx < s.gens.length →
      k.gen ≠ 0 →
      s.gens.getD k.idx 0 = k.gen →
      s.cells.getD k.idx (Cell.link 0) = Cell.val v →
      SM.applyOps impl M ops s = some t →
      t.gens.length = t.cells.length ∧ k.idx < t.gens.length ∧
        t.gens.getD k.idx 0 = k.gen ∧
        t.cells.getD k.idx (Cell.link 0) = Cell.val v := by
  intro ops
  induction ops with
  | nil =>
      intro s t _ h1 h2 _ h4 h5 h
      simp only [SM.applyOps, Option.some.injEq] at h
      exact h ▸ ⟨h1, h2, h4, h5⟩
  | cons op ops ih =>
      intro s t hni h1 h2 h3 h4 h5 h
      simp only [SM.applyOps] at h
      cases hop : SM.applyOp impl M op s with
      | none => rw [hop] at h; simp at h
      | some s2 =>
          rw [hop] at h
          simp only [Option.some_bind] at h
          have hni2 : SMOp.rem k ∉ ops := fun hm =>
            hni (List.mem_cons_of_mem _ hm)
          cases op with
          | ins w =>
              simp only [SM.applyOp] at hop
              cases hins : SM.insert impl M w s with
              | none => rw [hins] at hop; simp at hop
              | some p =>
                  obtain ⟨kk, s2x⟩ := p
                  rw [hins] at hop
                  obtain rfl : s2 = s2x := by simpa using hop.symm
                  obtain ⟨s1, sk, hpath, hctr, hfhlt, hg0, hsk, hkey, hteq⟩ :=
                    SM.insert_unfold hins
                  have hs1 : s1.gens.length = s1.cells.length ∧
                      s1.gens.getD k.idx 0 = s.gens.getD k.idx 0 ∧
                      s1.cells.getD k.idx (Cell.link 0)
                        = s.cells.getD k.idx (Cell.link 0) ∧
                      s.gens.length ≤ s1.gens.length := by
                    rcases hpath with ⟨hex, hres⟩ | ⟨hlt, he⟩
                    · obtain ⟨hlt2, sk2, hsk2, he⟩ := SM.resize_elim hres
                      rw [he]
                      refine ⟨?_, ?_, ?_, ?_⟩
                      · simp only [length_resizeList, List.length_set,
                          List.length_append, List.length_map,
                          List.length_range]
                        omega
                      · exact getD_resizeList_lt _ _ _ (by omega) (by omega)
                      · rw [getD_set_ne _ _ _ (by omega),
                          getD_append_lt _ _ _ _ (by omega)]
                      · simp only [length_resizeList]
                        omega
                    · rw [he]
                      exact ⟨h1, rfl, rfl, le_refl _⟩
                  have hfne : s.freeHead ≠ k.idx := by
                    intro e
                    rw [e, hs1.2.1, h4] at hg0
                    exact h3 hg0
                  have hmid1 : s2.gens.length = s2.cells.length := by
                    rw [hteq]
                    simp only [List.length_set]
                    exact hs1.1
                  have hmid2 : k.idx < s2.gens.length := by
                    rw [hteq]
                    simp only [List.length_set]
                    omega
                  have hmid4 : s2.gens.getD k.idx 0 = k.gen := by
                    rw [hteq]
                    show (s1.gens.set s.freeHead s1.genCtr).getD k.idx 0 = k.gen
                    rw [getD_set_ne _ _ _ hfne, hs1.2.1]
                    exact h4
                  have hmid5 : s2.cells.getD k.idx (Cell.link 0)
                      = Cell.val v := by
                    rw [hteq]
                    show (s1.cells.set s.freeHead (Cell.val w)).getD k.idx
                      (Cell.link 0) = Cell.val v
                    rw [getD_set_ne _ _ _ hfne, hs1.2.2.1]
                    exact h5
                  exact ih s2 t hni2 hmid1 hmid2 h3 hmid4 hmid5 h
          | rem k2 =>
              simp only [SM.applyOp] at hop
              cases hrem : SM.remove impl k2 s with
              | none => rw [hrem] at hop; simp at hop
              | some p =>
                  obtain ⟨b, s2x⟩ := p
                  rw [hrem] at hop
                  obtain rfl : s2 = s2x := by simpa using hop.symm
                  have hkk2 : k ≠ k2 := fun e =>
                    hni (by rw [e]; exact List.mem_cons_self _ _)
                  cases b with
                  | false =>
                      have he : s2 = s := SM.remove_false_unfold hrem
                      rw [he] at h
                      exact ih s t hni2 h1 h2 h3 h4 h5 h
                  | true =>
                      obtain ⟨hidx2, hg2, hstored, sk, hsk, hteq⟩ :=
                        SM.remove_true_unfold hrem
                      have hine : k2.idx ≠ k.idx := by
                        intro e
                        apply hkk2
                        rw [e, h4] at hstored
                        cases k with
                        | mk ki kg =>
                            cases k2 with
                            | mk k2i k2g =>
                                simp only [GKey.mk.injEq]
                                exact ⟨e.symm, hstored⟩
                      have hmid1 : s2.gens.length = s2.cells.length := by
                        rw [hteq]
                        simp only [List.length_set]
                        exact h1
                      have hmid2 : k.idx < s2.gens.length := by
                        rw [hteq]
                        simp only [List.length_set]
                        exact h2
                      have hmid4 : s2.gens.getD k.idx 0 = k.gen := by
                        rw [hteq]
                        show (s.gens.set k2.idx 0).getD k.idx 0 = k.gen
                        rw [getD_set_ne _ _ _ hine]
                        exact h4
                      have hmid5 : s2.cells.getD k.idx (Cell.link 0)
                          = Cell.val v := by
                        rw [hteq]
                        show (s.cells.set k2.idx
                          (Cell.link s.freeHead)).getD k.idx (Cell.link 0)
                          = Cell.val v
                        rw [getD_set_ne _ _ _ hine]
                        exact h5
                      exact ih s2 t hni2 hmid1 hmid2 h3 hmid4 hmid5 h
          | res n =>
              simp only [SM.applyOp] at hop
              obtain ⟨hlt, sk, hsk, hteq⟩ := SM.resize_elim hop
              have hmid1 : s2.gens.length = s2.cells.length := by
                rw [hteq]
                simp only [length_resizeList, List.length_set,
                  List.length_append, List.length_map, List.length_range]
                omega
              have hmid2 : k.idx < s2.gens.length := by
                rw [hteq]
                simp only [length_resizeList]
                omega
              have hmid4 : s2.gens.getD k.idx 0 = k.gen := by
                rw [hteq]
                show (resizeList s.gens n).getD k.idx 0 = k.gen
                rw [getD_resizeList_lt _ _ _ (by omega) (by omega)]
                exact h4
              have hmid5 : s2.cells.getD k.idx (Cell.link 0)
                  = Cell.val v := by
                rw [hteq]
                show ((s.cells ++ (List.range (n - s.cells.length)).map
                    (fun j => Cell.link (s.cells.length + j + 1))).set
                    (n - 1) (Cell.link s.freeHead)).getD k.idx
                  (Cell.link 0) = Cell.val v
                rw [getD_set_ne _ _ _ (by omega),
                  getD_append_lt _ _ _ _ (by omega)]
                exact h5
              exact ih s2 t hni2 hmid1 hmid2 h3 hmid4 hmid5 h

/-- C2, counterexample to the claim as stated: a forged key whose
generation happens to match a free slot's stored generation corrupts the
DenseSlotMap.  After inserting 10, 20, 30, the insert of 40 hands out
key (3, 1); the subsequent removes use keys (0,1) and (1,1) - both
honestly obtained - and then (1,2), which was never handed out but
matches the advanced generation 2 now stored for the free slot 1.
contains accepts it (it compares generations only), remove corrupts the
backref bookkeeping, and get((3, 1)) afterwards returns 30, not 40,
although no removal affected key (3, 1). -/
theorem c2_counterexample :
    ((DSM.applyOps 4294967296 [DOp.ins 10, DOp.ins 20, DOp.ins 30]
        (DSM.init Nat 4 1 1 1)).bind fun s =>
      (DSM.insert 40 s).bind fun r =>
      (DSM.applyOps 4294967296
        [DOp.rem ⟨0, 1⟩, DOp.rem ⟨1, 1⟩, DOp.rem ⟨1, 2⟩] r.2).bind fun t =>
      (DSM.get r.1 t).map fun w => (r.1, w))
    = some (⟨3, 1⟩, 30) ∧ (30 : Nat) ≠ 40 := by
  exact ⟨by decide, by decide⟩

/-- C2 (amended): the round trip holds for honest clients.  Sparse
SlotMap: if insert(v) returns key k, get(k) is v immediately, and stays
v across any completed sequence of further inserts, removes and resizes
that does not contain remove(k) itself (a remove of a key with k's index
but a different generation is rejected and changes nothing).
DenseSlotMap: the same holds in every state reachable from the
constructor, provided every remove in the trace is honest - its key
either names a slot currently owning a value or fails the generation
comparison.  (The counterexample shows the claim is false for forged
keys, which the interface never hands out.) -/
theorem c2_round_trip_amended :
    (∀ (T : Type) (impl : SkipImpl) (M : Nat) (v : T) (s s1 t : SM T)
        (k : GKey) (ops : List (SMOp T)),
      s.gens.length = s.cells.length →
      s.genCtr ≠ 0 →
      SM.insert impl M v s = some (k, s1) →
      SMOp.rem k ∉ ops →
      SM.applyOps impl M ops s1 = some t →
      SM.get k s1 = some v ∧ SM.get k t = some v ∧
        SM.find k t = some (some v)) ∧
    (∀ (T : Type) (M : Nat) (cap gc gn gd : Nat) (ops0 : List (DOp T))
        (v : T) (s s1 t : DSM T) (k : GKey) (ops : List (DOp T)),
      DSM.okTrace M ops0 (DSM.init T cap gc gn gd) = true →
      DSM.applyOps M ops0 (DSM.init T cap gc gn gd) = some s →
      DSM.insert v s = some (k, s1) →
      DSM.okTrace M ops s1 = true →
      DOp.rem k ∉ ops →
      DSM.applyOps M ops s1 = some t →
      DSM.get k s1 = some v ∧ DSM.get k t = some v ∧
        DSM.find k t = some (some v)) := by
  constructor
  · intro T impl M v s s1 t k ops hsync hg0 hins hni happ
    obtain ⟨s1m, sk, hpath, hctr, hfhlt, hg00, hsk, hkey, hteq⟩ :=
      SM.insert_unfold hins
    have hkg : k.gen = s1m.genCtr := by rw [hkey]
    have hki : k.idx = s.freeHead := by rw [hkey]
    have hkgnz : k.gen ≠ 0 := by
      rw [hkg, hctr]
      exact hg0
    have hs1m : s1m.gens.length = s1m.cells.length ∧
        s.gens.length ≤ s1m.gens.length := by
      rcases hpath with ⟨hex, hres⟩ | ⟨hlt, he⟩
      · obtain ⟨hlt2, sk2, hsk2, he⟩ := SM.resize_elim hres
        rw [he]
        constructor
        · simp only [length_resizeList, List.length_set,
            List.length_append, List.length_map, List.length_range]
          omega
        · simp only [length_resizeList]
          omega
      · rw [he]
        exact ⟨hsync, le_refl _⟩
    have hu1 : s1.gens.length = s1.cells.length := by
      rw [hteq]
      simp only [List.length_set]
      exact hs1m.1
    have hu2 : k.idx < s1.gens.length := by
      rw [hteq, hki]
      simp only [List.length_set]
      omega
    have hu3 : s1.gens.getD k.idx 0 = k.gen := by
      rw [hteq, hki]
      show (s1m.gens.set s.freeHead s1m.genCtr).getD s.freeHead 0 = k.gen
      rw [getD_set_self _ _ _ _ (by omega), hkg]
    have hu4 : s1.cells.getD k.idx (Cell.link 0) = Cell.val v := by
      rw [hteq, hki]
      show (s1m.cells.set s.freeHead (Cell.val v)).getD s.freeHead
        (Cell.link 0) = Cell.val v
      rw [getD_set_self _ _ _ _ (by omega)]
    have hget : ∀ (u : SM T), u.gens.length = u.cells.length →
        k.idx < u.gens.length → u.gens.getD k.idx 0 = k.gen →
        u.cells.getD k.idx (Cell.link 0) = Cell.val v →
        SM.get k u = some v ∧ SM.find k u = some (some v) := by
      intro u u1 u2 u3 u4
      have hcont : SM.contains k u = some true := by
        unfold SM.contains
        rw [if_neg (by omega), u3]
        simp [GKey.valid, hkgnz]
      have hgv : SM.get k u = some v := by
        unfold SM.get
        rw [hcont]
        simp only [Option.some_bind, if_true]
        rw [u4]
      refine ⟨hgv, ?_⟩
      unfold SM.find
      rw [hcont]
      simp [hgv]
    obtain ⟨ht1, ht2, ht3, ht4⟩ :=
      sm_live_preserved impl M k v ops s1 t hni hu1 hu2 hkgnz hu3 hu4 happ
    exact ⟨(hget s1 hu1 hu2 hu3 hu4).1, (hget t ht1 ht2 ht3 ht4).1,
      (hget t ht1 ht2 ht3 ht4).2⟩
  · intro T M cap gc gn gd ops0 v s s1 t k ops hok0 happ0 hins hok hni happ
    have hwfs : DSM.DWF s :=
      DSM.dwf_applyOps M ops0 (DSM.init T cap gc gn gd) s
        (DSM.dwf_init T cap gc gn gd) hok0 happ0
    have step := DSM.dwf_insert hwfs hins
    obtain ⟨hwt, htr⟩ :=
      DSM.dwf_track_applyOps M k v ops s1 t step.1 step.2.1 hni hok happ
    have hgetd : ∀ (u : DSM T), DSM.track k v u →
        DSM.get k u = some v ∧ DSM.find k u = some (some v) := by
      intro u hu
      obtain ⟨u1, u2, u3, u4, u5⟩ := hu
      have hcont : DSM.contains k u = some true := by
        unfold DSM.contains
        rw [if_neg (by omega), u2]
        simp
      have hgv : DSM.get k u = some v := by
        unfold DSM.get
        rw [hcont]
        simp only [Option.some_bind, if_true]
        exact u5
      refine ⟨hgv, ?_⟩
      unfold DSM.find
      rw [hcont]
      simp [hgv]
    exact ⟨(hgetd s1 step.2.1).1, (hgetd t htr).1, (hgetd t htr).2⟩

theorem c2_round_trip_amended_witness :
    SM.get (⟨0, 1⟩ : GKey)
      { cells := [Cell.val 5], gens := [1], skip := [], sz := 1,
        freeHead := 1, gc := 1, gfNum := 1, gfDen := 1, genCtr := 2 }
      = some 5 ∧
    DSM.get (⟨0, 1⟩ : GKey)
      { data := [5], indices := [⟨0, 1⟩], backrefs := [0],
        freeHead := 1, gc := 1, gfNum := 1, gfDen := 1 }
      = some 5 ∧
    DSM.find (⟨0, 1⟩ : GKey)
      { data := [5], indices := [⟨0, 1⟩], backrefs := [0],
        freeHead := 1, gc := 1, gfNum := 1, gfDen := 1 }
      = some (some 5) := by
  have h1 := c2_round_trip_amended.1 Nat .nullSF 4294967296 5
    { cells := [Cell.link 1], gens := [0], skip := [], sz := 0,
      freeHead := 0, gc := 1, gfNum := 1, gfDen := 1, genCtr := 1 }
    { cells := [Cell.val 5], gens := [1], skip := [], sz := 1,
      freeHead := 1, gc := 1, gfNum := 1, gfDen := 1, genCtr := 2 }
    { cells := [Cell.val 5], gens := [1], skip := [], sz := 1,
      freeHead := 1, gc := 1, gfNum := 1, gfDen := 1, genCtr := 2 }
    ⟨0, 1⟩ []
    (by decide) (by decide) (by decide) (by decide) (by decide)
  have h2 := c2_round_trip_amended.2 Nat 4294967296 1 1 1 1 [] 5
    (DSM.init Nat 1 1 1 1)
    { data := [5], indices := [⟨0, 1⟩], backrefs := [0],
      freeHead := 1, gc := 1, gfNum := 1, gfDen := 1 }
    { data := [5], indices := [⟨0, 1⟩], backrefs := [0],
      freeHead := 1, gc := 1, gfNum := 1, gfDen := 1 }
    ⟨0, 1⟩ []
    (by decide) (by decide) (by decide) (by decide) (by decide) (by decide)
  exact ⟨h1.1, h2.2.1, h2.2.2⟩

/-- C4, counterexample to the claim as stated: after the nine-operation
sequence insert 10, 20, 30, 40; remove (0,1); remove (1,1); remove of
the forged key (1,2); insert 50; insert 60, the packing equation
indices[backrefs[p]].idx == p fails (at the occupied position p = 1 of
the three live positions).  The forged remove put slot 1 on the free
list twice, so the two last inserts both handed out slot 1. -/
theorem c4_counterexample :
    ((DSM.applyOps 4294967296 [DOp.ins 10, DOp.ins 20, DOp.ins 30,
        DOp.ins 40, DOp.rem ⟨0, 1⟩, DOp.rem ⟨1, 1⟩, DOp.rem ⟨1, 2⟩,
        DOp.ins 50, DOp.ins 60]
        (DSM.init Nat 4 1 1 1)).map fun t =>
      decide (∀ p, p < t.data.length →
        (t.indices.getD (t.backrefs.getD p 0) ⟨0, 0⟩).idx = p))
    = some false := by
  decide

/-- C4 (amended): in every state reachable from the DenseSlotMap
constructor by inserts and honest removes (keys that either own a value
or fail the generation check), every occupied dense position p satisfies
backrefs[p] < capacity and indices[backrefs[p]].idx = p, and the key
(backrefs[p], indices[backrefs[p]].gen) - the live key owning that
value - still finds exactly the value stored at position p.  In
particular a swap-and-pop remove re-points the moved element's indices
entry correctly. -/
theorem c4_packing_invariant_amended :
    ∀ (T : Type) (M : Nat) (cap gc gn gd : Nat) (ops : List (DOp T))
      (t : DSM T),
      DSM.okTrace M ops (DSM.init T cap gc gn gd) = true →
      DSM.applyOps M ops (DSM.init T cap gc gn gd) = some t →
      ∀ p, p < t.data.length →
        t.backrefs.getD p 0 < t.indices.length ∧
        (t.indices.getD (t.backrefs.getD p 0) ⟨0, 0⟩).idx = p ∧
        DSM.get ⟨t.backrefs.getD p 0,
            (t.indices.getD (t.backrefs.getD p 0) ⟨0, 0⟩).gen⟩ t
          = t.data.get? p := by
  intro T M cap gc gn gd ops t hok happ p hp
  have hwf : DSM.DWF t :=
    DSM.dwf_applyOps M ops (DSM.init T cap gc gn gd) t
      (DSM.dwf_init T cap gc gn gd) hok happ
  obtain ⟨hlen, hle, hback, _⟩ := hwf
  obtain ⟨hb1, hb2⟩ := hback p hp
  refine ⟨hb1, hb2, ?_⟩
  have hcont : DSM.contains
      ⟨t.backrefs.getD p 0,
        (t.indices.getD (t.backrefs.getD p 0) ⟨0, 0⟩).gen⟩ t
      = some true := by
    unfold DSM.contains
    rw [if_neg (show ¬ t.indices.length ≤ t.backrefs.getD p 0 from by omega)]
    simp
  unfold DSM.get
  rw [hcont]
  simp only [Option.some_bind, if_true]
  show t.data.get?
    ((t.indices.getD (t.backrefs.getD p 0) ⟨0, 0⟩).idx) = t.data.get? p
  rw [hb2]

theorem c4_packing_invariant_amended_witness :
    (([1] : List Nat).getD 0 0 < ([⟨2, 2⟩, ⟨0, 1⟩] : List GKey).length ∧
      (([⟨2, 2⟩, ⟨0, 1⟩] : List GKey).getD (([1] : List Nat).getD 0 0)
        ⟨0, 0⟩).idx = 0 ∧
      DSM.get ⟨([1] : List Nat).getD 0 0,
          (([⟨2, 2⟩, ⟨0, 1⟩] : List GKey).getD (([1] : List Nat).getD 0 0)
            ⟨0, 0⟩).gen⟩
        ({ data := [20], indices := [⟨2, 2⟩, ⟨0, 1⟩], backrefs := [1],
           freeHead := 0, gc := 1, gfNum := 1, gfDen := 1 } : DSM Nat)
        = ([20] : List Nat).get? 0) := by
  exact c4_packing_invariant_amended Nat 4294967296 2 1 1 1
    [DOp.ins 10, DOp.ins 20, DOp.rem ⟨0, 1⟩]
    { data := [20], indices := [⟨2, 2⟩, ⟨0, 1⟩], backrefs := [1],
      freeHead := 0, gc := 1, gfNum := 1, gfDen := 1 }
    (by decide) (by decide) 0 (by decide)

end Pasta
